import Mathlib

/-!
Verification development for the Discord-markdown parsing and rendering
engine of `discord-chat-exporter-py`
(`discord_chat_exporter/core/markdown/{parser,nodes,visitor,plaintext_visitor,html_visitor}.py`).

The Python parser applies an ordered list of regex- and literal-substring
matchers to zero-copy segments of the source text.  We shallowly embed it:

* a small backtracking regex engine over `List Char` in the
  list-of-successes style; each compiled Python pattern is transliterated
  into a `Regex` AST (`re.MULTILINE` is always on, so `^` matches at the
  start of the string or after a newline; `re.DOTALL` is reflected in the
  `dot` constructor's flag).  Character classes `\w`, `\d`, `\s` are
  modelled by their ASCII parts, which is exhaustive for every input the
  claims mention;
* the matcher framework (`_regex_matcher`, `_string_matcher`,
  `_aggregate_matcher`, `_match_all`) exactly as in the source;
* the recursive parser `_parse` with its hard depth cap of 32, written
  with the *remaining* depth (`32 - depth`) as a structurally decreasing
  fuel argument so that the embedding is total by construction;
* the node model and the two visitors (plain text and HTML).
-/

set_option maxRecDepth 20000

namespace DiscordMd

/-- ASCII fragment of Python's `\s` (space, tab, newline, carriage return,
vertical tab, form feed). -/
def isSpacePy (c : Char) : Bool :=
  c = ' ' || c = '\t' || c = '\n' || c = '\r' || c = Char.ofNat 11 || c = Char.ofNat 12

/-- Python's `\d`, ASCII part. -/
def isDigitPy (c : Char) : Bool :=
  '0' ≤ c && c ≤ '9'

/-- Python's `\w`, ASCII part: letters, digits and underscore. -/
def isWordPy (c : Char) : Bool :=
  ('a' ≤ c && c ≤ 'z') || ('A' ≤ c && c ≤ 'Z') || isDigitPy c || c = '_'

/-- The backquote character (code point 96). -/
def bq : Char := Char.ofNat 96

/-- The apostrophe character (code point 39). -/
def apos : Char := Char.ofNat 39

/-- The double-quote character (code point 34). -/
def dquote : Char := Char.ofNat 34

/-- Character at position `p` of the source (arbitrary default out of range;
every read is guarded by a bounds check). -/
def getC (s : List Char) (p : Nat) : Char :=
  s.getD p (Char.ofNat 0)

/-- Slice `s[a:b]` of a character list. -/
def sliceCh (s : List Char) (a b : Nat) : List Char :=
  (s.drop a).take (b - a)

/-- Evaluation helper: pass `n` to `k` after reducing it to a numeral.
Semantically the identity (see `forceNat_eq`); it only keeps
kernel reduction of the executable definitions below from re-evaluating
large position terms, by forcing them at the points where they are bound. -/
def forceNat {α : Sort u} (n : Nat) (k : Nat → α) : α :=
  match n with
  | 0 => k 0
  | m+1 => k (m+1)

theorem forceNat_eq {α : Sort u} (n : Nat) (k : Nat → α) : forceNat n k = k n := by
  cases n <;> rfl

/-- Regex ASTs, covering exactly the constructs used by the compiled
patterns in `parser.py`.  `dot` carries the `re.DOTALL` flag of its
pattern; `bol` is `^` under `re.MULTILINE`; `nla` is a negative lookahead
`(?!...)`; `nlb` is a negative lookbehind over a one-character class;
`backref` is `\1`-style backreference; `grp` is a numbered capture group. -/
inductive Regex where
  | eps
  | chr (c : Char)
  | cls (f : Char → Bool)
  | dot (dotall : Bool)
  | seq (a b : Regex)
  | alt (a b : Regex)
  | star (lz : Bool) (r : Regex)
  | grp (i : Nat) (r : Regex)
  | nla (r : Regex)
  | nlb (f : Char → Bool)
  | bol
  | eos
  | backref (i : Nat)

/-- Capture environment: most recent capture of each group first. -/
abbrev Caps := List (Nat × Nat × Nat)

/-- Latest recorded span of capture group `i`. -/
def capGet (caps : Caps) (i : Nat) : Option (Nat × Nat) :=
  match caps with
  | [] => none
  | (j, a, b) :: rest => if j = i then some (a, b) else capGet rest i

/-- Backtracking loop for `star`: all stopping points in preference order
(greedy: longest first; lazy: shortest first).  Zero-width body matches do
not iterate further (as in Python's `re`).  The fuel is chosen at the
`star` node as `endP + 1 - p`, which is enough because every further
iteration starts strictly to the right of the previous one. -/
def starLoop (m : Nat → Caps → List (Nat × Caps)) (lz : Bool) :
    Nat → Nat → Caps → List (Nat × Caps)
  | 0, p, caps => [(p, caps)]
  | fuel+1, p, caps =>
    let more := (m p caps).flatMap
      (fun pc => forceNat pc.1 (fun q =>
        if q ≤ p then [] else starLoop m lz fuel q pc.2))
    if lz then (p, caps) :: more else more ++ [(p, caps)]

/-- List-of-successes matcher: all ways for `r` to match starting at `p`
(each success is the end position plus the captures), in backtracking
preference order.  Matching is confined to `[0, endP)` on the right, while
`bol` and lookbehind may inspect characters before `p` (Python's `re`
semantics for `pos`/`endpos`). -/
def mtch (s : List Char) (endP : Nat) : Regex → Nat → Caps → List (Nat × Caps)
  | .eps, p, caps => [(p, caps)]
  | .chr c, p, caps =>
    if p < endP && getC s p = c then [(p + 1, caps)] else []
  | .cls f, p, caps =>
    if p < endP && f (getC s p) then [(p + 1, caps)] else []
  | .dot dotall, p, caps =>
    if p < endP && (dotall || !(getC s p = '\n')) then [(p + 1, caps)] else []
  | .seq a b, p, caps =>
    (mtch s endP a p caps).flatMap (fun pc =>
      forceNat pc.1 (fun q => mtch s endP b q pc.2))
  | .alt a b, p, caps => mtch s endP a p caps ++ mtch s endP b p caps
  | .star lz r, p, caps =>
    starLoop (fun q c => mtch s endP r q c) lz (endP + 1 - p) p caps
  | .grp i r, p, caps =>
    (mtch s endP r p caps).map (fun pc =>
      forceNat pc.1 (fun q => (q, (i, p, q) :: pc.2)))
  | .nla r, p, caps =>
    if (mtch s endP r p caps).isEmpty then [(p, caps)] else []
  | .nlb f, p, caps =>
    if 0 < p && f (getC s (p - 1)) then [] else [(p, caps)]
  | .bol, p, caps =>
    if p = 0 || getC s (p - 1) = '\n' then [(p, caps)] else []
  | .eos, p, caps =>
    if p = endP || (p + 1 = endP && getC s p = '\n') then [(p, caps)] else []
  | .backref i, p, caps =>
    match capGet caps i with
    | none => []
    | some (a, b) =>
      forceNat (p + (b - a)) (fun q =>
        if q ≤ endP && sliceCh s p q = sliceCh s a b
        then [(q, caps)] else [])

/-- `r+` (`lz = false`) and `r+?` (`lz = true`). -/
def rep1 (lz : Bool) (r : Regex) : Regex := .seq r (.star lz r)

/-- `r?` (greedy) and `r??` (lazy). -/
def ropt (lz : Bool) (r : Regex) : Regex :=
  if lz then .alt .eps r else .alt r .eps

/-- `r{2,}` greedy. -/
def rep2plus (r : Regex) : Regex := .seq r (.seq r (.star false r))

/-- `r{1,2}` greedy. -/
def rep1to2 (r : Regex) : Regex := .seq r (ropt false r)

/-- `r{1,3}` greedy. -/
def rep1to3 (r : Regex) : Regex := .seq r (ropt false (.seq r (ropt false r)))

/-- Literal character sequence. -/
def rlit : List Char → Regex
  | [] => .eps
  | c :: rest => .seq (.chr c) (rlit rest)

/-- Sequence of several regexes. -/
def rcat : List Regex → Regex
  | [] => .eps
  | [r] => r
  | r :: rest => .seq r (rcat rest)

/-- A successful search: match start, match end, captures. -/
structure SearchHit where
  mstart : Nat
  mend : Nat
  caps : Caps
deriving DecidableEq

/-- Try positions `p, p+1, ...` (at most `count` of them); first position
where `r` matches wins, and the first success there is the match
(leftmost match, backtracking preference for the extent). -/
def searchAux (s : List Char) (endP : Nat) (r : Regex) :
    Nat → Nat → Option SearchHit
  | 0, _ => none
  | count+1, p =>
    match mtch s endP r p [] with
    | pc :: _ => forceNat pc.1 (fun e => some ⟨p, e, pc.2⟩)
    | [] => searchAux s endP r count (p + 1)

/-- `re.Pattern.search(s, pos, endpos)`: leftmost match of `r` within
`[pos, endP]` start positions. -/
def rsearch (s : List Char) (r : Regex) (pos endP : Nat) : Option SearchHit :=
  searchAux s endP r (endP + 1 - pos) pos

/-- `re.Pattern.finditer(s, pos, endpos)`: non-overlapping matches, scanning
left to right.  The fuel bounds the number of iterations; every match of
the patterns we use is nonempty, so it never runs out on them. -/
def finditerAux (s : List Char) (endP : Nat) (r : Regex) :
    Nat → Nat → List SearchHit
  | 0, _ => []
  | fuel+1, p =>
    match rsearch s r p endP with
    | none => []
    | some h => h :: finditerAux s endP r fuel (if p < h.mend then h.mend else p + 1)

def rfinditer (s : List Char) (r : Regex) (pos endP : Nat) : List SearchHit :=
  finditerAux s endP r (endP + 1 - pos) pos

/-! ## Node model (`nodes.py`)

`MarkdownNode` and `MarkdownNodeList` are mutually inductive (rather than
nesting `List`) so that recursion over trees is structural; `nlist`
converts a `List MarkdownNode` for convenient literals.  `ListItemNode`s
appear as the `items` of a `list` node, as in the source. -/

inductive FormattingKind where
  | bold | italic | underline | strikethrough | spoiler | quote
deriving DecidableEq

inductive MentionKind where
  | everyone | here | user | channel | role
deriving DecidableEq

/-- `Snowflake`: an immutable wrapper around an integer id. -/
structure Snowflake where
  value : Int
deriving DecidableEq

mutual
inductive MarkdownNode where
  | text (text : String)
  | formatting (kind : FormattingKind) (children : MarkdownNodeList)
  | heading (level : Nat) (children : MarkdownNodeList)
  | list (items : MarkdownNodeList)
  | listItem (children : MarkdownNodeList)
  | inlineCodeBlock (code : String)
  | multiLineCodeBlock (language : String) (code : String)
  | link (url : String) (children : MarkdownNodeList)
  | mention (targetId : Option Snowflake) (kind : MentionKind)
  | emoji (id : Option Snowflake) (name : String) (isAnimated : Bool)
  | timestamp (instant : Option Int) (format : Option Char)
deriving DecidableEq
inductive MarkdownNodeList where
  | nil
  | cons (head : MarkdownNode) (tail : MarkdownNodeList)
deriving DecidableEq
end

def nlist : List MarkdownNode → MarkdownNodeList
  | [] => .nil
  | n :: rest => .cons n (nlist rest)

def MarkdownNodeList.append : MarkdownNodeList → MarkdownNodeList → MarkdownNodeList
  | .nil, ys => ys
  | .cons x xs, ys => .cons x (xs.append ys)

/-- `LinkNode.__post_init__`: a link constructed with no children defaults
to a single `Text` child holding the URL. -/
def LinkNode (url : String) (children : MarkdownNodeList) : MarkdownNode :=
  match children with
  | .nil => .link url (nlist [.text url])
  | _ => .link url children

/-- The reserved invalid-timestamp sentinel (`TIMESTAMP_INVALID`). -/
def TIMESTAMP_INVALID : MarkdownNode := .timestamp none none

/-- Python `int(str)` on the strings produced by the matcher capture groups:
optional surrounding ASCII whitespace, optional sign, nonempty digit run.
(Other `int(...)` inputs never occur in the markdown matchers.) -/
def int_try_parse (cs : List Char) : Option Int :=
  let trimmed := (cs.dropWhile isSpacePy).reverse.dropWhile isSpacePy |>.reverse
  let (negSign, digits) :=
    match trimmed with
    | '-' :: rest => (true, rest)
    | '+' :: rest => (false, rest)
    | _ => (false, trimmed)
  if digits.isEmpty || !digits.all isDigitPy then none
  else
    let n : Nat := digits.foldl (fun acc c => acc * 10 + (c.toNat - '0'.toNat)) 0
    some (if negSign then -(n : Int) else (n : Int))

/-- `Snowflake.try_parse`: `None` for empty/blank input, else the integer
value.  The ISO-date fallback of the source is unreachable from the
markdown matchers (they only pass digit strings) and is modelled as the
final `None`. -/
def Snowflake.try_parse (cs : List Char) : Option Snowflake :=
  if cs.isEmpty || (cs.dropWhile isSpacePy).isEmpty then none
  else
    match int_try_parse cs with
    | some v => some ⟨v⟩
    | none => none

/-! ## Matcher framework (`parser.py`) -/

/-- `_MAX_DEPTH`. -/
def MAX_DEPTH : Nat := 32

/-- `_Segment`: a view into the original source string. -/
structure Segment where
  source : List Char
  start : Nat
  length : Nat
deriving DecidableEq

def Segment.endPos (seg : Segment) : Nat := seg.start + seg.length

def Segment.relocate (seg : Segment) (newStart newLength : Nat) : Segment :=
  ⟨seg.source, newStart, newLength⟩

/-- `str(segment)`: the characters the segment views. -/
def Segment.str (seg : Segment) : String :=
  ⟨sliceCh seg.source seg.start seg.endPos⟩

/-- `_ParsedMatch`. -/
structure ParsedMatch where
  segment : Segment
  value : MarkdownNode
deriving DecidableEq

/-- A matcher.  The Python `depth` argument is partially applied away: the
parser below threads the remaining recursion budget through the matcher
*constructors* instead (each transform closes over the child-parse
function for its depth). -/
abbrev Matcher := Segment → Option ParsedMatch

/-- Captured text of group `i` of a hit, as in `m.group(i)` (`none` when
the group did not participate in the match). -/
def groupStr (s : List Char) (h : SearchHit) (i : Nat) : Option (List Char) :=
  (capGet h.caps i).map (fun ab => sliceCh s ab.1 ab.2)

/-- `_seg_from_group`: a segment pointing at capture group `i` (which in
every use of the source did participate in the match; unset groups map to
an empty segment at the match start). -/
def segFromGroup (seg : Segment) (h : SearchHit) (i : Nat) : Segment :=
  match capGet h.caps i with
  | some (a, b) => seg.relocate a (b - a)
  | none => seg.relocate h.mstart 0

/-- `_regex_matcher`: search within the segment, then transform.  The
transform receives the matched segment and the raw hit (standing for the
`re.Match` object). -/
def regex_matcher (pat : Regex)
    (transform : Segment → SearchHit → Option MarkdownNode) : Matcher :=
  fun segment =>
    match rsearch segment.source pat segment.start segment.endPos with
    | none => none
    | some h =>
      if h.mstart < segment.start || segment.endPos < h.mend then none
      else
        let segMatch := segment.relocate h.mstart (h.mend - h.mstart)
        match transform segMatch h with
        | none => none
        | some node => some ⟨segMatch, node⟩

/-- `str.find(needle, start, end)`: first index of the substring, fully
inside `[a, b)`. -/
def strFindAux (s needle : List Char) (b : Nat) : Nat → Nat → Option Nat
  | 0, _ => none
  | count+1, idx =>
    if idx + needle.length ≤ b && sliceCh s idx (idx + needle.length) = needle
    then some idx
    else strFindAux s needle b count (idx + 1)

def strFind (s needle : List Char) (a b : Nat) : Option Nat :=
  strFindAux s needle b (b + 1 - a) a

/-- `_string_matcher`: look for an exact substring. -/
def string_matcher (needle : List Char)
    (transform : Segment → MarkdownNode) : Matcher :=
  fun segment =>
    match strFind segment.source needle segment.start segment.endPos with
    | none => none
    | some idx =>
      let segMatch := segment.relocate idx needle.length
      some ⟨segMatch, transform segMatch⟩

/-- The loop body of `_aggregate_matcher`: fold the matchers in order,
keeping the hit with the strictly earliest start; stop as soon as the kept
hit starts at the segment's own start. -/
def aggregateGo (segment : Segment) :
    List Matcher → Option ParsedMatch → Option ParsedMatch
  | [], earliest => earliest
  | m :: rest, earliest =>
    match m segment with
    | none => aggregateGo segment rest earliest
    | some hit =>
      let earliest' :=
        match earliest with
        | none => hit
        | some e => if hit.segment.start < e.segment.start then hit else e
      if earliest'.segment.start = segment.start then some earliest'
      else aggregateGo segment rest (some earliest')

/-- `_aggregate_matcher`: try all sub-matchers and return the earliest hit
(first-listed wins ties), stopping early on a hit at the segment start. -/
def aggregate_matcher (matchers : List Matcher) : Matcher :=
  fun segment => aggregateGo segment matchers none

/-- The loop of `_match_all`, with the cursor made explicit.  The fuel
bounds the number of iterations; it is spent only when a hit fails to move
the cursor forward, which cannot happen for the matchers of this parser
(all their matches are nonempty), mirroring the Python `while` loop. -/
def matchAllGo (m : Matcher) (segment : Segment) :
    Nat → Nat → List MarkdownNode
  | 0, current =>
    if current < segment.endPos
    then [.text ⟨sliceCh segment.source current segment.endPos⟩] else []
  | fuel+1, current =>
    if current < segment.endPos then
      match m (segment.relocate current (segment.endPos - current)) with
      | none => [.text ⟨sliceCh segment.source current segment.endPos⟩]
      | some hit =>
        forceNat hit.segment.start (fun hs =>
          forceNat (hs + hit.segment.length) (fun next =>
            (if current < hs
             then [MarkdownNode.text ⟨sliceCh segment.source current hs⟩]
             else []) ++
            hit.value :: matchAllGo m segment fuel next))
    else []

/-- `_match_all`: apply `m` across the segment, filling gaps with text
nodes. -/
def match_all (m : Matcher) (segment : Segment) : List MarkdownNode :=
  matchAllGo m segment (segment.length + 1) segment.start

/-! ## The compiled patterns of `parser.py`, transliterated

All patterns are compiled with `re.MULTILINE`; `DOTALL` is noted per
pattern via the `dot` flag. -/

/-- `\*\*(.+?)\*\*(?!\*)` (DOTALL). -/
def boldPat : Regex :=
  rcat [.chr '*', .chr '*', .grp 1 (rep1 true (.dot true)),
        .chr '*', .chr '*', .nla (.chr '*')]

/-- `\*(?!\s)(.+?)(?<!\s|\*)\*(?!\*)` (DOTALL). -/
def italicPat : Regex :=
  rcat [.chr '*', .nla (.cls isSpacePy), .grp 1 (rep1 true (.dot true)),
        .nlb (fun c => isSpacePy c || c = '*'), .chr '*', .nla (.chr '*')]

/-- `\*(\*\*.+?\*\*)\*(?!\*)` (DOTALL). -/
def italicBoldPat : Regex :=
  rcat [.chr '*',
        .grp 1 (rcat [.chr '*', .chr '*', rep1 true (.dot true), .chr '*', .chr '*']),
        .chr '*', .nla (.chr '*')]

/-- `_(.+?)_(?!\w)` (DOTALL). -/
def italicAltPat : Regex :=
  rcat [.chr '_', .grp 1 (rep1 true (.dot true)), .chr '_', .nla (.cls isWordPy)]

/-- `__(.+?)__(?!_)` (DOTALL). -/
def underlinePat : Regex :=
  rcat [.chr '_', .chr '_', .grp 1 (rep1 true (.dot true)),
        .chr '_', .chr '_', .nla (.chr '_')]

/-- `_(__.+?__)_(?!_)` (DOTALL). -/
def italicUnderlinePat : Regex :=
  rcat [.chr '_',
        .grp 1 (rcat [.chr '_', .chr '_', rep1 true (.dot true), .chr '_', .chr '_']),
        .chr '_', .nla (.chr '_')]

/-- `~~(.+?)~~` (DOTALL). -/
def strikethroughPat : Regex :=
  rcat [.chr '~', .chr '~', .grp 1 (rep1 true (.dot true)), .chr '~', .chr '~']

/-- `\|\|(.+?)\|\|` (DOTALL). -/
def spoilerPat : Regex :=
  rcat [.chr '|', .chr '|', .grp 1 (rep1 true (.dot true)), .chr '|', .chr '|']

/-- `^>\s(.+\n?)`. -/
def singleLineQuotePat : Regex :=
  rcat [.bol, .chr '>', .cls isSpacePy,
        .grp 1 (.seq (rep1 false (.dot false)) (ropt false (.chr '\n')))]

/-- `^>\s(.*\n?)`: one quoted line, also reused by the transform of the
repeated-quote matcher (`line_pat`). -/
def quoteLinePat : Regex :=
  rcat [.bol, .chr '>', .cls isSpacePy,
        .grp 1 (.seq (.star false (.dot false)) (ropt false (.chr '\n')))]

/-- `(?:^>\s(.*\n?)){2,}`. -/
def repeatedQuotePat : Regex := rep2plus quoteLinePat

/-- `^>>>\s(.+)` (DOTALL). -/
def multiLineQuotePat : Regex :=
  rcat [.bol, .chr '>', .chr '>', .chr '>', .cls isSpacePy,
        .grp 1 (rep1 false (.dot true))]

/-- `^(\#{1,3})\s(.+)\n`. -/
def headingPat : Regex :=
  rcat [.bol, .grp 1 (rep1to3 (.chr '#')), .cls isSpacePy,
        .grp 2 (rep1 false (.dot false)), .chr '\n']

/-- `[\-\*]` of the list patterns. -/
def isBullet (c : Char) : Bool := c = '-' || c = '*'

/-- `^(\s*)(?:[\-\*]\s(.+(?:\n\s\1.*)*)?\n?)+`. -/
def listPat : Regex :=
  rcat [.bol, .grp 1 (.star false (.cls isSpacePy)),
        rep1 false (rcat
          [.cls isBullet, .cls isSpacePy,
           ropt false (.grp 2 (.seq (rep1 false (.dot false))
             (.star false (rcat [.chr '\n', .cls isSpacePy, .backref 1,
                                 .star false (.dot false)])))),
           ropt false (.chr '\n')])]

/-- `[\-\*]\s(.+(?:\n\s<indent>.*)*)`, the per-item pattern the list
transform builds with `re.escape(m.group(1))` spliced in as a literal. -/
def listItemPat (indent : List Char) : Regex :=
  rcat [.cls isBullet, .cls isSpacePy,
        .grp 1 (.seq (rep1 false (.dot false))
          (.star false (rcat [.chr '\n', .cls isSpacePy, rlit indent,
                              .star false (.dot false)])))]

/-- ``(`{1,2})([^`]+)\1`` (DOTALL). -/
def inlineCodePat : Regex :=
  rcat [.grp 1 (rep1to2 (.chr bq)),
        .grp 2 (rep1 false (.cls (fun c => !(c = bq)))), .backref 1]

/-- ```` ```(?:(\w*)\n)?(.+?)``` ```` (DOTALL). -/
def multiCodePat : Regex :=
  rcat [.chr bq, .chr bq, .chr bq,
        ropt false (.seq (.grp 1 (.star false (.cls isWordPy))) (.chr '\n')),
        .grp 2 (rep1 true (.dot true)), .chr bq, .chr bq, .chr bq]

/-- `<@!?(\d+)>`. -/
def userMentionPat : Regex :=
  rcat [.chr '<', .chr '@', ropt false (.chr '!'),
        .grp 1 (rep1 false (.cls isDigitPy)), .chr '>']

/-- `<\#!?(\d+)>`. -/
def channelMentionPat : Regex :=
  rcat [.chr '<', .chr '#', ropt false (.chr '!'),
        .grp 1 (rep1 false (.cls isDigitPy)), .chr '>']

/-- `<@&(\d+)>`. -/
def roleMentionPat : Regex :=
  rcat [.chr '<', .chr '@', .chr '&',
        .grp 1 (rep1 false (.cls isDigitPy)), .chr '>']

/-- Regional indicator symbols `[\U0001F1E6-\U0001F1FF]`. -/
def isRegionalIndicator (c : Char) : Bool :=
  0x1F1E6 ≤ c.toNat && c.toNat ≤ 0x1F1FF

/-- `[\U0001F000-\U0001FAFF]` (astral emoji block). -/
def isAstralEmoji (c : Char) : Bool :=
  0x1F000 ≤ c.toNat && c.toNat ≤ 0x1FAFF

/-- The miscellaneous-characters class of `_STANDARD_EMOJI_PATTERN`. -/
def isMiscEmoji (c : Char) : Bool :=
  let n := c.toNat
  (0x2600 ≤ n && n ≤ 0x2604) || n = 0x260E || n = 0x2611 ||
  (0x2614 ≤ n && n ≤ 0x2615) || n = 0x2618 || n = 0x261D || n = 0x2620 ||
  (0x2622 ≤ n && n ≤ 0x2623) || n = 0x2626 || n = 0x262A ||
  (0x262E ≤ n && n ≤ 0x262F) || (0x2638 ≤ n && n ≤ 0x263A) ||
  n = 0x2640 || n = 0x2642 || (0x2648 ≤ n && n ≤ 0x2653) ||
  (0x265F ≤ n && n ≤ 0x2660) || n = 0x2663 || (0x2665 ≤ n && n ≤ 0x2666) ||
  n = 0x2668 || n = 0x267B || (0x267E ≤ n && n ≤ 0x267F) ||
  (0x2692 ≤ n && n ≤ 0x2697) || n = 0x2699 || (0x269B ≤ n && n ≤ 0x269C) ||
  (0x26A0 ≤ n && n ≤ 0x26A1) || n = 0x26A7 || (0x26AA ≤ n && n ≤ 0x26AB) ||
  (0x26B0 ≤ n && n ≤ 0x26B1) || (0x26BD ≤ n && n ≤ 0x26BE) ||
  (0x26C4 ≤ n && n ≤ 0x26C5) || n = 0x26C8 || (0x26CE ≤ n && n ≤ 0x26CF) ||
  n = 0x26D1 || (0x26D3 ≤ n && n ≤ 0x26D4) || (0x26E9 ≤ n && n ≤ 0x26EA) ||
  (0x26F0 ≤ n && n ≤ 0x26F5) || (0x26F7 ≤ n && n ≤ 0x26FA) || n = 0x26FD

/-- `_STANDARD_EMOJI_PATTERN`: flags, digit emoji, astral code points, or
a miscellaneous emoji character, in that alternation order. -/
def standardEmojiPat : Regex :=
  .grp 1 (.alt (.seq (.cls isRegionalIndicator) (.cls isRegionalIndicator))
    (.alt (rcat [.cls isDigitPy, ropt false (.chr (Char.ofNat 0xFE0F)),
                 .chr (Char.ofNat 0x20E3)])
      (.alt (.cls isAstralEmoji) (.cls isMiscEmoji))))

/-- `<(a)?:(.+?):(\d+?)>`. -/
def customEmojiPat : Regex :=
  rcat [.chr '<', ropt false (.grp 1 (.chr 'a')), .chr ':',
        .grp 2 (rep1 true (.dot false)), .chr ':',
        .grp 3 (rep1 true (.cls isDigitPy)), .chr '>']

/-- `:([\w_]+):`. -/
def codedEmojiPat : Regex :=
  rcat [.chr ':', .grp 1 (rep1 false (.cls (fun c => isWordPy c || c = '_'))),
        .chr ':']

/-- `[^\.,:;\"'\s]`: allowed final character of an auto-link URL. -/
def isLinkEnd (c : Char) : Bool :=
  !(c = '.' || c = ',' || c = ':' || c = ';' || c = dquote || c = apos ||
    isSpacePy c)

/-- `(https?://\S*[^\.,:;\"'\s])`. -/
def autoLinkPat : Regex :=
  .grp 1 (rcat [rlit "http".data, ropt false (.chr 's'), rlit "://".data,
                .star false (.cls (fun c => !isSpacePy c)), .cls isLinkEnd])

/-- `<(https?://\S*[^\.,:;\"'\s])>`. -/
def hiddenLinkPat : Regex :=
  rcat [.chr '<',
        .grp 1 (rcat [rlit "http".data, ropt false (.chr 's'), rlit "://".data,
                      .star false (.cls (fun c => !isSpacePy c)), .cls isLinkEnd]),
        .chr '>']

/-- `\[(.+?)\]\((.+?)\)`. -/
def maskedLinkPat : Regex :=
  rcat [.chr '[', .grp 1 (rep1 true (.dot false)), .chr ']',
        .chr '(', .grp 2 (rep1 true (.dot false)), .chr ')']

/-- The kaomoji literal of `_mk_shrug_text`. -/
def shrugChars : List Char := "¯\\_(ツ)_/¯".data

/-- The class of `_mk_ignored_emoji_text`. -/
def isIgnoredEmoji (c : Char) : Bool :=
  let n := c.toNat
  n = 0x26A7 || n = 0x2640 || n = 0x2642 || n = 0x2695 || n = 0x267E ||
  n = 0x00A9 || n = 0x00AE || n = 0x2122

/-- `([⚧♀♂⚕♾©®™])`. -/
def ignoredEmojiPat : Regex := .grp 1 (.cls isIgnoredEmoji)

/-- The symbol-character body of `_mk_escaped_symbol_text`. -/
def isEscapableSymbol (c : Char) : Bool :=
  let n := c.toNat
  (0x10000 ≤ n && n ≤ 0x10FFFF) ||
  (0x2000 ≤ n && n ≤ 0x2BFF) || (0x2E00 ≤ n && n ≤ 0x2E7F) ||
  (0x3000 ≤ n && n ≤ 0x303F) || (0xFE00 ≤ n && n ≤ 0xFE0F) ||
  (0x00A0 ≤ n && n ≤ 0x00FF)

/-- `\\(<symbol ranges>)`. -/
def escapedSymbolPat : Regex :=
  .seq (.chr '\\') (.grp 1 (.cls isEscapableSymbol))

/-- `\\([^a-zA-Z0-9\s])`. -/
def escapedCharPat : Regex :=
  .seq (.chr '\\')
    (.grp 1 (.cls (fun c =>
      !(('a' ≤ c && c ≤ 'z') || ('A' ≤ c && c ≤ 'Z') || isDigitPy c ||
        isSpacePy c))))

/-- `<t:(-?\d+)(?::(\w))?>`. -/
def timestampPat : Regex :=
  rcat [.chr '<', .chr 't', .chr ':',
        .grp 1 (.seq (ropt false (.chr '-')) (rep1 false (.cls isDigitPy))),
        ropt false (.seq (.chr ':') (.grp 2 (.cls isWordPy))), .chr '>']

/-! ## Matcher constructors (`_mk_*` of `parser.py`)

Each constructor that recurses takes the child-parse function it uses
(`_parse` at the matcher's depth, with the appropriate matcher set) as an
explicit argument; the pipeline below ties the knot through the
structurally decreasing remaining-depth fuel. -/

/-- Python `str.strip()` (ASCII whitespace model). -/
def pyStrip (cs : List Char) : List Char :=
  (cs.dropWhile isSpacePy).reverse.dropWhile isSpacePy |>.reverse

/-- Python `str.strip("\r\n")`. -/
def stripCRLF (cs : List Char) : List Char :=
  let f : Char → Bool := fun c => c = '\r' || c = '\n'
  (cs.dropWhile f).reverse.dropWhile f |>.reverse

def mk_bold (pn : Segment → List MarkdownNode) : Matcher :=
  regex_matcher boldPat (fun s h =>
    some (.formatting .bold (nlist (pn (segFromGroup s h 1)))))

def mk_italic (pn : Segment → List MarkdownNode) : Matcher :=
  regex_matcher italicPat (fun s h =>
    some (.formatting .italic (nlist (pn (segFromGroup s h 1)))))

/-- `_mk_italic_bold`: the child segment is parsed with `_BOLD_MATCHER`. -/
def mk_italic_bold (pb : Segment → List MarkdownNode) : Matcher :=
  regex_matcher italicBoldPat (fun s h =>
    some (.formatting .italic (nlist (pb (segFromGroup s h 1)))))

def mk_italic_alt (pn : Segment → List MarkdownNode) : Matcher :=
  regex_matcher italicAltPat (fun s h =>
    some (.formatting .italic (nlist (pn (segFromGroup s h 1)))))

def mk_underline (pn : Segment → List MarkdownNode) : Matcher :=
  regex_matcher underlinePat (fun s h =>
    some (.formatting .underline (nlist (pn (segFromGroup s h 1)))))

/-- `_mk_italic_underline`: the child segment is parsed with
`_UNDERLINE_MATCHER`. -/
def mk_italic_underline (pu : Segment → List MarkdownNode) : Matcher :=
  regex_matcher italicUnderlinePat (fun s h =>
    some (.formatting .italic (nlist (pu (segFromGroup s h 1)))))

def mk_strikethrough (pn : Segment → List MarkdownNode) : Matcher :=
  regex_matcher strikethroughPat (fun s h =>
    some (.formatting .strikethrough (nlist (pn (segFromGroup s h 1)))))

def mk_spoiler (pn : Segment → List MarkdownNode) : Matcher :=
  regex_matcher spoilerPat (fun s h =>
    some (.formatting .spoiler (nlist (pn (segFromGroup s h 1)))))

def mk_single_line_quote (pn : Segment → List MarkdownNode) : Matcher :=
  regex_matcher singleLineQuotePat (fun s h =>
    some (.formatting .quote (nlist (pn (segFromGroup s h 1)))))

/-- `_mk_repeated_single_line_quote`: re-scan the matched region with
`line_pat` and concatenate the parsed contents of every line. -/
def mk_repeated_single_line_quote (pn : Segment → List MarkdownNode) : Matcher :=
  regex_matcher repeatedQuotePat (fun s h =>
    some (.formatting .quote (nlist
      ((rfinditer s.source quoteLinePat h.mstart h.mend).flatMap
        (fun lm => pn (segFromGroup s lm 1))))))

def mk_multi_line_quote (pn : Segment → List MarkdownNode) : Matcher :=
  regex_matcher multiLineQuotePat (fun s h =>
    some (.formatting .quote (nlist (pn (segFromGroup s h 1)))))

def mk_heading (pn : Segment → List MarkdownNode) : Matcher :=
  regex_matcher headingPat (fun s h =>
    let level := match capGet h.caps 1 with
      | some (a, b) => b - a
      | none => 0
    some (.heading level (nlist (pn (segFromGroup s h 2)))))

/-- `_mk_list`: re-scan the matched region with the per-item pattern built
from the captured indentation. -/
def mk_list (pn : Segment → List MarkdownNode) : Matcher :=
  regex_matcher listPat (fun s h =>
    let indent := (groupStr s.source h 1).getD []
    some (.list (nlist
      ((rfinditer s.source (listItemPat indent) h.mstart h.mend).map
        (fun im => MarkdownNode.listItem (nlist (pn (segFromGroup s im 1))))))))

def mk_inline_code_block : Matcher :=
  regex_matcher inlineCodePat (fun s h =>
    some (.inlineCodeBlock ⟨(groupStr s.source h 2).getD []⟩))

def mk_multi_line_code_block : Matcher :=
  regex_matcher multiCodePat (fun s h =>
    let lang := (groupStr s.source h 1).getD []
    let code := stripCRLF ((groupStr s.source h 2).getD [])
    some (.multiLineCodeBlock ⟨lang⟩ ⟨code⟩))

def mk_everyone_mention : Matcher :=
  string_matcher "@everyone".data (fun _ => .mention none .everyone)

def mk_here_mention : Matcher :=
  string_matcher "@here".data (fun _ => .mention none .here)

def mk_user_mention : Matcher :=
  regex_matcher userMentionPat (fun s h =>
    some (.mention (Snowflake.try_parse ((groupStr s.source h 1).getD [])) .user))

def mk_channel_mention : Matcher :=
  regex_matcher channelMentionPat (fun s h =>
    some (.mention (Snowflake.try_parse ((groupStr s.source h 1).getD [])) .channel))

def mk_role_mention : Matcher :=
  regex_matcher roleMentionPat (fun s h =>
    some (.mention (Snowflake.try_parse ((groupStr s.source h 1).getD [])) .role))

def mk_standard_emoji : Matcher :=
  regex_matcher standardEmojiPat (fun s h =>
    some (.emoji none ⟨(groupStr s.source h 1).getD []⟩ false))

/-- The `CODE_TO_EMOJI` lookup of `_mk_coded_standard_emoji`.  The
`emoji_index` module it is imported from is not part of this repository's
sources; the transform guards the import with `except ImportError:
return None`, so in the repository as given the lookup never succeeds. -/
def CODE_TO_EMOJI : List Char → Option (List Char) := fun _ => none

def mk_coded_standard_emoji : Matcher :=
  regex_matcher codedEmojiPat (fun s h =>
    match CODE_TO_EMOJI ((groupStr s.source h 1).getD []) with
    | none => none
    | some e => some (.emoji none ⟨e⟩ false))

def mk_custom_emoji : Matcher :=
  regex_matcher customEmojiPat (fun s h =>
    let isAnimated := match groupStr s.source h 1 with
      | some g => !(pyStrip g).isEmpty
      | none => false
    let name : String := ⟨(groupStr s.source h 2).getD []⟩
    let eid := Snowflake.try_parse ((groupStr s.source h 3).getD [])
    some (.emoji eid name isAnimated))

def mk_auto_link : Matcher :=
  regex_matcher autoLinkPat (fun s h =>
    some (LinkNode ⟨(groupStr s.source h 1).getD []⟩ .nil))

def mk_hidden_link : Matcher :=
  regex_matcher hiddenLinkPat (fun s h =>
    some (LinkNode ⟨(groupStr s.source h 1).getD []⟩ .nil))

def mk_masked_link (pn : Segment → List MarkdownNode) : Matcher :=
  regex_matcher maskedLinkPat (fun s h =>
    some (LinkNode ⟨(groupStr s.source h 2).getD []⟩
      (nlist (pn (segFromGroup s h 1)))))

def mk_shrug_text : Matcher :=
  string_matcher shrugChars (fun s => .text s.str)

def mk_ignored_emoji_text : Matcher :=
  regex_matcher ignoredEmojiPat (fun s h =>
    some (.text ⟨(groupStr s.source h 1).getD []⟩))

def mk_escaped_symbol_text : Matcher :=
  regex_matcher escapedSymbolPat (fun s h =>
    some (.text ⟨(groupStr s.source h 1).getD []⟩))

def mk_escaped_character_text : Matcher :=
  regex_matcher escapedCharPat (fun s h =>
    some (.text ⟨(groupStr s.source h 1).getD []⟩))

/-- Bounds of `datetime.fromtimestamp(·, tz=utc)`: epoch seconds of
`0001-01-01T00:00:00Z` and `9999-12-31T23:59:59Z`; outside them the call
raises (caught by the transform, yielding the invalid sentinel). -/
def EPOCH_MIN : Int := -62135596800

def EPOCH_MAX : Int := 253402300799

def fromtimestampValid (e : Int) : Bool := EPOCH_MIN ≤ e && e ≤ EPOCH_MAX

/-- The body of `_mk_timestamp`'s transform after the epoch string has
been converted: range-check the epoch (the model of
`datetime.fromtimestamp`), then classify the format code. -/
def timestampNodeOf (epoch : Int) (rawFormat0 : Option Char) : MarkdownNode :=
  if !fromtimestampValid epoch then TIMESTAMP_INVALID
  else
    let rawFormat := match rawFormat0 with
      | some c => if isSpacePy c then none else some c
      | none => none
    match rawFormat with
    | some c =>
      if c = 't' || c = 'T' || c = 'd' || c = 'D' || c = 'f' || c = 'F' then
        .timestamp (some epoch) (some c)
      else if c = 'r' || c = 'R' then .timestamp (some epoch) none
      else TIMESTAMP_INVALID
    | none => .timestamp (some epoch) none

def mk_timestamp : Matcher :=
  regex_matcher timestampPat (fun s h =>
    match int_try_parse ((groupStr s.source h 1).getD []) with
    | none => some TIMESTAMP_INVALID
    | some epoch =>
      let rawFormat := (groupStr s.source h 2).bind (fun g =>
        match g with
        | [c] => some c
        | _ => none)
      some (timestampNodeOf epoch rawFormat))

/-! ## The pipelines and the recursive parser

In the source, `_NODE_MATCHER`, `_BOLD_MATCHER` and `_UNDERLINE_MATCHER`
are module-level values, and recursion bottoms out through the `depth`
counter that `_parse` threads: `_parse(depth, seg, m)` emits the segment
verbatim at `depth >= _MAX_DEPTH` and otherwise runs `_match_all(m,
depth + 1, seg)`, whose transforms call `_parse(depth + 1, ...)`.  Here the
same recursion is driven by the *remaining* depth `fuel = MAX_DEPTH -
depth`, which decreases structurally; `matcherFor` rebuilds the matcher
value a level needs, closing over the child parser at one fuel less. -/

/-- Which of the three module-level matcher values `_parse` is run with. -/
inductive MSel where
  | node | boldOnly | underlineOnly | minimal

/-- The ordered matcher list of `_NODE_MATCHER`.  `recf` is the child-parse
function (i.e. `_parse` at the next depth with the selected matcher). -/
def node_matchers (recf : MSel → Segment → List MarkdownNode) : List Matcher :=
  [mk_shrug_text,
       mk_ignored_emoji_text,
       mk_escaped_symbol_text,
       mk_escaped_character_text,
       mk_italic_bold (recf .boldOnly),
       mk_italic_underline (recf .underlineOnly),
       mk_bold (recf .node),
       mk_italic (recf .node),
       mk_underline (recf .node),
       mk_italic_alt (recf .node),
       mk_strikethrough (recf .node),
       mk_spoiler (recf .node),
       mk_multi_line_quote (recf .node),
       mk_repeated_single_line_quote (recf .node),
       mk_single_line_quote (recf .node),
       mk_heading (recf .node),
       mk_list (recf .node),
       mk_multi_line_code_block,
       mk_inline_code_block,
       mk_everyone_mention,
       mk_here_mention,
       mk_user_mention,
       mk_channel_mention,
       mk_role_mention,
       mk_masked_link (recf .node),
       mk_auto_link,
       mk_hidden_link,
       mk_standard_emoji,
       mk_custom_emoji,
       mk_coded_standard_emoji,
       mk_timestamp]

/-- The ordered matcher list of `_MINIMAL_NODE_MATCHER`. -/
def minimal_matchers : List Matcher :=
  [mk_everyone_mention,
   mk_here_mention,
   mk_user_mention,
   mk_channel_mention,
   mk_role_mention,
   mk_custom_emoji,
   mk_timestamp]

/-- Build the matcher value a recursion level runs with. -/
def matcherFor : MSel → (MSel → Segment → List MarkdownNode) → Matcher
  | .node, recf => aggregate_matcher (node_matchers recf)
  | .boldOnly, recf => mk_bold (recf .node)
  | .underlineOnly, recf => mk_underline (recf .node)
  | .minimal, _ => aggregate_matcher minimal_matchers

/-- `_parse`, indexed by remaining depth (`fuel = MAX_DEPTH - depth`):
at fuel 0 (the depth cap) the segment is emitted verbatim as a single
text node; otherwise one `_match_all` pass runs with transforms parsing
children at one fuel less. -/
def parseCore : Nat → MSel → Segment → List MarkdownNode
  | 0, _, seg => [.text seg.str]
  | fuel+1, sel, seg =>
    match_all (matcherFor sel (fun sel' seg' => parseCore fuel sel' seg')) seg

/-- `parse`: full pipeline over the whole text, at depth 0. -/
def parse (markdown : String) : List MarkdownNode :=
  parseCore MAX_DEPTH .node ⟨markdown.data, 0, markdown.data.length⟩

/-- `parse_minimal`: mentions, custom emoji and timestamps only. -/
def parse_minimal (markdown : String) : List MarkdownNode :=
  parseCore MAX_DEPTH .minimal ⟨markdown.data, 0, markdown.data.length⟩

/-! ## Context and entity models (`context.py` and the discord models)

Only the fields the markdown visitors read are modelled.  The member
cache `_members` distinguishes "id not cached" from "cached as absent",
exactly as the `dict[Snowflake, Member | None]` does; `populate_member_by_id`
is the cache-filling step (its network fetch is the abstract
`discord_try_get_member` field).  `format_date`, `resolve_asset_url` and
the fetch are abstract function fields: the context is an external
collaborator. -/

structure User where
  name : String
  discriminator : Option Nat
  display_name : String
deriving DecidableEq

/-- `f"{self.discriminator:04d}"`. -/
def pad4 (n : Nat) : String :=
  let s := toString n
  ⟨List.replicate (4 - s.data.length) '0' ++ s.data⟩

def User.discriminator_formatted (u : User) : String :=
  match u.discriminator with
  | some d => pad4 d
  | none => "0000"

def User.full_name (u : User) : String :=
  match u.discriminator with
  | some _ => u.name ++ "#" ++ u.discriminator_formatted
  | none => u.name

structure Member where
  user : User
  display_name : Option String
deriving DecidableEq

structure Channel where
  name : String
  is_voice : Bool
deriving DecidableEq

structure Role where
  name : String
  position : Nat
  color : Option String
deriving DecidableEq

structure ExportContext where
  members : Snowflake → Option (Option Member)
  channels : Snowflake → Option Channel
  roles : Snowflake → Option Role
  discord_try_get_member : Snowflake → Option Member
  resolve_asset_url : String → String
  format_date : Int → String → String

/-- `populate_member_by_id` / `_populate_member(id, None)`: no-op when the
id is cached, otherwise cache the fetch result (even a miss). -/
def ExportContext.populate_member_by_id (ctx : ExportContext) (mid : Snowflake) :
    ExportContext :=
  match ctx.members mid with
  | some _ => ctx
  | none =>
    { ctx with members := fun k =>
        if k = mid then some (ctx.discord_try_get_member mid) else ctx.members k }

/-- `try_get_member`: `self._members.get(member_id)` (uncached and
cached-as-absent both give `None`). -/
def ExportContext.try_get_member (ctx : ExportContext) (mid : Snowflake) :
    Option Member :=
  match ctx.members mid with
  | some v => v
  | none => none

def ExportContext.try_get_channel (ctx : ExportContext) (cid : Snowflake) :
    Option Channel :=
  ctx.channels cid

def ExportContext.try_get_role (ctx : ExportContext) (rid : Snowflake) :
    Option Role :=
  ctx.roles rid

/-- `member.display_name or member.user.display_name` (Python `or`: both
`None` and the empty string fall back). -/
def memberShownName (m : Member) : String :=
  match m.display_name with
  | some s => if s = "" then m.user.display_name else s
  | none => m.user.display_name

/-- `node.format or "g"` passed to `format_date`. -/
def timestampFormatString (fmt : Option Char) : String :=
  match fmt with
  | some c => ⟨[c]⟩
  | none => "g"

/-! ## Emoji image URLs (`models/emoji.py`, `models/cdn.py`) -/

/-- Lowercase hex representation of a code point (`f"{cp:x}"`). -/
def natToHex (n : Nat) : String := ⟨Nat.toDigits 16 n⟩

/-- `ImageCdn.get_standard_emoji_url`: Twemoji SVG URL from the dash-joined
code points, dropping the variation selector U+FE0F unless a ZWJ U+200D is
present. -/
def get_standard_emoji_url (emojiName : String) : String :=
  let codepoints := emojiName.data.map Char.toNat
  let hasZwj := codepoints.contains 0x200D
  let filtered := if hasZwj then codepoints else codepoints.filter (fun cp => cp ≠ 0xFE0F)
  let twemojiId := String.intercalate "-" (filtered.map natToHex)
  "https://cdn.jsdelivr.net/gh/twitter/twemoji@latest/assets/svg/" ++ twemojiId ++ ".svg"

/-- `ImageCdn.get_custom_emoji_url`. -/
def get_custom_emoji_url (emojiId : Snowflake) (isAnimated : Bool) : String :=
  let ext := if isAnimated then "gif" else "png"
  "https://cdn.discordapp.com/emojis/" ++ toString emojiId.value ++ "." ++ ext

/-- `EmojiNode.image_url` via the `Emoji` model. -/
def emojiImageUrl (id : Option Snowflake) (name : String) (isAnimated : Bool) :
    String :=
  match id with
  | some i => get_custom_emoji_url i isAnimated
  | none => get_standard_emoji_url name

/-- `EmojiNode.code`: the name for custom emoji, else the short-code of a
standard emoji through `EMOJI_TO_CODE` — the `emoji_index` module is not
part of this repository's sources, and `EMOJI_TO_CODE.get(name, name)`
with the absent index is modelled by its default. -/
def emojiCode (id : Option Snowflake) (name : String) : String :=
  match id with
  | some _ => name
  | none => name

/-! ## Plain-text visitor (`plaintext_visitor.py`)

The visitors are written as state-passing functions `ctx → node → ctx ×
output`: visiting a user mention populates the member cache, which later
siblings observe, exactly as the buffer-writing `async` methods do;
the returned string is what the visit appends to the buffer. -/

/-- `visit_mention` of `PlainTextMarkdownVisitor`. -/
def plainVisitMention (ctx : ExportContext) (targetId : Option Snowflake)
    (kind : MentionKind) : ExportContext × String :=
  match kind with
  | .everyone => (ctx, "@everyone")
  | .here => (ctx, "@here")
  | .user =>
    let ctx' := match targetId with
      | some i => ctx.populate_member_by_id i
      | none => ctx
    let member := match targetId with
      | some i => ctx'.try_get_member i
      | none => none
    let displayName := match member with
      | some m => memberShownName m
      | none => "Unknown"
    (ctx', "@" ++ displayName)
  | .channel =>
    let channel := match targetId with
      | some i => ctx.try_get_channel i
      | none => none
    match channel with
    | some ch => (ctx, "#" ++ ch.name ++ (if ch.is_voice then " [voice]" else ""))
    | none => (ctx, "#" ++ "deleted-channel")
  | .role =>
    let role := match targetId with
      | some i => ctx.try_get_role i
      | none => none
    match role with
    | some r => (ctx, "@" ++ r.name)
    | none => (ctx, "@" ++ "deleted-role")

/-- `visit_timestamp` of `PlainTextMarkdownVisitor`. -/
def plainVisitTimestamp (ctx : ExportContext) (instant : Option Int)
    (fmt : Option Char) : String :=
  match instant with
  | some e => ctx.format_date e (timestampFormatString fmt)
  | none => "Invalid date"

mutual
/-- Visit one node: `PlainTextMarkdownVisitor.visit` (the container cases
are the defaults of the base `MarkdownVisitor`, which recurse; the code
block leaves are the base no-ops). -/
def plainVisitNode (ctx : ExportContext) : MarkdownNode → ExportContext × String
  | .text t => (ctx, t)
  | .formatting _ children => plainVisitMany ctx children
  | .heading _ children => plainVisitMany ctx children
  | .list items => plainVisitMany ctx items
  | .listItem children => plainVisitMany ctx children
  | .inlineCodeBlock _ => (ctx, "")
  | .multiLineCodeBlock _ _ => (ctx, "")
  | .link _ children => plainVisitMany ctx children
  | .mention targetId kind => plainVisitMention ctx targetId kind
  | .emoji id name _ =>
    (ctx, if id.isSome then ":" ++ name ++ ":" else name)
  | .timestamp instant fmt => (ctx, plainVisitTimestamp ctx instant fmt)

def plainVisitMany (ctx : ExportContext) : MarkdownNodeList → ExportContext × String
  | .nil => (ctx, "")
  | .cons n rest =>
    let r := plainVisitNode ctx n
    let r' := plainVisitMany r.1 rest
    (r'.1, r.2 ++ r'.2)
end

/-- `PlainTextMarkdownVisitor.format`: minimal parse, then render. -/
def PlainTextMarkdownVisitor_format (ctx : ExportContext) (markdown : String) :
    String :=
  (plainVisitMany ctx (nlist (parse_minimal markdown))).2

/-! ## HTML visitor (`html_visitor.py`) -/

/-- `html.escape(text, quote=True)`. -/
def htmlEncodeChar (c : Char) : List Char :=
  if c = '&' then "&amp;".data
  else if c = '<' then "&lt;".data
  else if c = '>' then "&gt;".data
  else if c = dquote then "&quot;".data
  else if c = apos then "&#x27;".data
  else [c]

def html_encode (t : String) : String :=
  ⟨t.data.flatMap htmlEncodeChar⟩

/-- `^https?://(?:discord|discordapp)\.com/channels/.*?/(\d+)/?$` (compiled
without MULTILINE or DOTALL; `eos` is `$` in that mode).  Used by
`visit_link` to recognise message permalinks. -/
def messageLinkPat : Regex :=
  rcat [rlit "http".data, ropt false (.chr 's'), rlit "://".data,
        .alt (rlit "discord".data) (rlit "discordapp".data),
        rlit ".com/channels/".data, .star true (.dot false), .chr '/',
        .grp 1 (rep1 false (.cls isDigitPy)), ropt false (.chr '/'), .eos]

/-- `re.match`: anchored at position 0. -/
def rmatchAt0 (s : List Char) (r : Regex) : Option SearchHit :=
  match mtch s s.length r 0 [] with
  | pc :: _ => some ⟨0, pc.1, pc.2⟩
  | [] => none

/-- The opening/closing tag pair of `visit_formatting`. -/
def htmlFormattingTags (kind : FormattingKind) : String × String :=
  match kind with
  | .bold => ("<strong>", "</strong>")
  | .italic => ("<em>", "</em>")
  | .underline => ("<u>", "</u>")
  | .strikethrough => ("<s>", "</s>")
  | .spoiler =>
    ("<span class=\"chatlog__markdown-spoiler chatlog__markdown-spoiler--hidden\"" ++
     " onclick=\"showSpoiler(event, this)\">", "</span>")
  | .quote =>
    ("<div class=\"chatlog__markdown-quote\">" ++
     "<div class=\"chatlog__markdown-quote-border\"></div>" ++
     "<div class=\"chatlog__markdown-quote-content\">", "</div></div>")

/-- `visit_emoji` of `HtmlMarkdownVisitor`. -/
def htmlVisitEmoji (ctx : ExportContext) (isJumbo : Bool) (id : Option Snowflake)
    (name : String) (isAnimated : Bool) : String :=
  let jumboClass := if isJumbo then "chatlog__emoji--large" else ""
  let imageUrl := ctx.resolve_asset_url (emojiImageUrl id name isAnimated)
  "<img loading=\"lazy\" " ++
  "class=\"chatlog__emoji " ++ jumboClass ++ "\" " ++
  "alt=\"" ++ name ++ "\" " ++
  "title=\"" ++ emojiCode id name ++ "\" " ++
  "src=\"" ++ imageUrl ++ "\">"

/-- Hex digit value (`int(·, 16)` on the digits of a role color). -/
def hexVal (c : Char) : Nat :=
  if '0' ≤ c && c ≤ '9' then c.toNat - '0'.toNat
  else if 'a' ≤ c && c ≤ 'f' then c.toNat - 'a'.toNat + 10
  else if 'A' ≤ c && c ≤ 'F' then c.toNat - 'A'.toNat + 10
  else 0

/-- `int(hex_color[i:i+2], 16)`; role colors are always `#rrggbb`. -/
def hexByte (cs : List Char) (i : Nat) : Nat :=
  hexVal (getC cs i) * 16 + hexVal (getC cs (i + 1))

/-- `visit_mention` of `HtmlMarkdownVisitor`. -/
def htmlVisitMention (ctx : ExportContext) (targetId : Option Snowflake)
    (kind : MentionKind) : ExportContext × String :=
  match kind with
  | .everyone => (ctx, "<span class=\"chatlog__markdown-mention\">@everyone</span>")
  | .here => (ctx, "<span class=\"chatlog__markdown-mention\">@here</span>")
  | .user =>
    let ctx' := match targetId with
      | some i => ctx.populate_member_by_id i
      | none => ctx
    let member := match targetId with
      | some i => ctx'.try_get_member i
      | none => none
    let fullName := match member with
      | some m => m.user.full_name
      | none => "Unknown"
    let displayName := match member with
      | some m => memberShownName m
      | none => "Unknown"
    (ctx', "<span class=\"chatlog__markdown-mention\" " ++
      "title=\"" ++ html_encode fullName ++ "\">" ++
      "@" ++ html_encode displayName ++ "</span>")
  | .channel =>
    let channel := match targetId with
      | some i => ctx.try_get_channel i
      | none => none
    let symbol := match channel with
      | some ch => if ch.is_voice then ⟨[Char.ofNat 0x1F50A]⟩ else "#"
      | none => "#"
    let name := match channel with
      | some ch => ch.name
      | none => "deleted-channel"
    (ctx, "<span class=\"chatlog__markdown-mention\">" ++ symbol ++
      html_encode name ++ "</span>")
  | .role =>
    let role := match targetId with
      | some i => ctx.try_get_role i
      | none => none
    let name := match role with
      | some r => r.name
      | none => "deleted-role"
    let style := match role with
      | some r =>
        match r.color with
        | some color =>
          let hex := color.data.dropWhile (fun c => c = '#')
          let rv := toString (hexByte hex 0)
          let gv := toString (hexByte hex 2)
          let bv := toString (hexByte hex 4)
          "color: rgb(" ++ rv ++ ", " ++ gv ++ ", " ++ bv ++ "); " ++
          "background-color: rgba(" ++ rv ++ ", " ++ gv ++ ", " ++ bv ++ ", 0.1);"
        | none => ""
      | none => ""
    (ctx, "<span class=\"chatlog__markdown-mention\" style=\"" ++ style ++ "\">" ++
      "@" ++ html_encode name ++ "</span>")

/-- `visit_timestamp` of `HtmlMarkdownVisitor`. -/
def htmlVisitTimestamp (ctx : ExportContext) (instant : Option Int)
    (fmt : Option Char) : String :=
  let formatted := match instant with
    | some e => ctx.format_date e (timestampFormatString fmt)
    | none => "Invalid date"
  let formattedLong := match instant with
    | some e => ctx.format_date e "f"
    | none => ""
  "<span class=\"chatlog__markdown-timestamp\" " ++
  "title=\"" ++ html_encode formattedLong ++ "\">" ++
  html_encode formatted ++ "</span>"

/-- `visit_link` of `HtmlMarkdownVisitor` (the anchor opening tag). -/
def htmlLinkOpen (url : String) : String :=
  match rmatchAt0 url.data messageLinkPat with
  | some h =>
    match groupStr url.data h 1 with
    | some mid =>
      "<a href=\"" ++ html_encode url ++ "\" " ++
      "onclick=\"scrollToMessage(event, " ++ apos.toString ++ ⟨mid⟩ ++
      apos.toString ++ ")\">"
    | none => "<a href=\"" ++ html_encode url ++ "\">"
  | none => "<a href=\"" ++ html_encode url ++ "\">"

mutual
/-- Visit one node: `HtmlMarkdownVisitor.visit`. -/
def htmlVisitNode (ctx : ExportContext) (isJumbo : Bool) :
    MarkdownNode → ExportContext × String
  | .text t => (ctx, html_encode t)
  | .formatting kind children =>
    let tags := htmlFormattingTags kind
    let r := htmlVisitMany ctx isJumbo children
    (r.1, tags.1 ++ r.2 ++ tags.2)
  | .heading level children =>
    let r := htmlVisitMany ctx isJumbo children
    (r.1, "<h" ++ toString level ++ ">" ++ r.2 ++ "</h" ++ toString level ++ ">")
  | .list items =>
    let r := htmlVisitMany ctx isJumbo items
    (r.1, "<ul>" ++ r.2 ++ "</ul>")
  | .listItem children =>
    let r := htmlVisitMany ctx isJumbo children
    (r.1, "<li>" ++ r.2 ++ "</li>")
  | .inlineCodeBlock code =>
    (ctx, "<code class=\"chatlog__markdown-pre chatlog__markdown-pre--inline\">" ++
      html_encode code ++ "</code>")
  | .multiLineCodeBlock language code =>
    let highlightClass :=
      if (pyStrip language.data).isEmpty then "nohighlight"
      else "language-" ++ language
    (ctx, "<code class=\"chatlog__markdown-pre chatlog__markdown-pre--multiline " ++
      highlightClass ++ "\">" ++ html_encode code ++ "</code>")
  | .link url children =>
    let r := htmlVisitMany ctx isJumbo children
    (r.1, htmlLinkOpen url ++ r.2 ++ "</a>")
  | .mention targetId kind => htmlVisitMention ctx targetId kind
  | .emoji id name isAnimated =>
    (ctx, htmlVisitEmoji ctx isJumbo id name isAnimated)
  | .timestamp instant fmt => (ctx, htmlVisitTimestamp ctx instant fmt)

def htmlVisitMany (ctx : ExportContext) (isJumbo : Bool) :
    MarkdownNodeList → ExportContext × String
  | .nil => (ctx, "")
  | .cons n rest =>
    let r := htmlVisitNode ctx isJumbo n
    let r' := htmlVisitMany r.1 isJumbo rest
    (r'.1, r.2 ++ r'.2)
end

/-- The per-node test of the jumbo condition in
`HtmlMarkdownVisitor.format`: an emoji node, or a blank text node. -/
def isEmojiOrBlankText (n : MarkdownNode) : Bool :=
  match n with
  | .emoji _ _ _ => true
  | .text t => (pyStrip t.data).isEmpty
  | _ => false

/-- `HtmlMarkdownVisitor.format`: full parse, jumbo detection, render. -/
def HtmlMarkdownVisitor_format (ctx : ExportContext) (markdown : String)
    (isJumboAllowed : Bool) : String :=
  let nodes := parse markdown
  let isJumbo := isJumboAllowed && nodes.all isEmojiOrBlankText
  (htmlVisitMany ctx isJumbo (nlist nodes)).2

/-- A context with nothing resolvable: every cache and lookup misses, the
fetch finds nothing, asset URLs resolve to themselves. -/
def emptyContext : ExportContext :=
  ⟨fun _ => none, fun _ => none, fun _ => none, fun _ => none,
   fun url => url, fun _ _ => ""⟩

/-! # Theorems -/

/-! ## C1: the aggregate matcher refines a reference aggregator -/

/-- Guard used to state C1: every hit the matcher produces on this segment
starts at or after the segment's start (true of every matcher built by
`regex_matcher` / `string_matcher`, which search within the segment). -/
def respectsStartB (m : Matcher) (seg : Segment) : Bool :=
  match m seg with
  | some hit => decide (seg.start ≤ hit.segment.start)
  | none => true

theorem respectsStartB_some {m : Matcher} {seg : Segment} {hit : ParsedMatch}
    (h : respectsStartB m seg = true) (hm : m seg = some hit) :
    seg.start ≤ hit.segment.start := by
  unfold respectsStartB at h
  rw [hm] at h
  exact of_decide_eq_true h

/-- Reference aggregator, following the spec's words: run *every* matcher
against the same segment, keep the result whose match starts earliest,
break ties in favour of the earlier-listed matcher, with no early stop. -/
def referenceGo (segment : Segment) :
    List Matcher → Option ParsedMatch → Option ParsedMatch
  | [], best => best
  | m :: rest, best =>
    let best' :=
      match m segment with
      | none => best
      | some hit =>
        match best with
        | none => some hit
        | some e =>
          if hit.segment.start < e.segment.start then some hit else some e
    referenceGo segment rest best'

def reference_aggregate (matchers : List Matcher) : Matcher :=
  fun segment => referenceGo segment matchers none

theorem referenceGo_fixed (segment : Segment) (ms : List Matcher)
    (e : ParsedMatch)
    (hwf : ∀ m ∈ ms, respectsStartB m segment = true)
    (he : e.segment.start ≤ segment.start) :
    referenceGo segment ms (some e) = some e := by
  induction ms with
  | nil => rfl
  | cons m rest ih =>
    have hm := hwf m (List.mem_cons_self m rest)
    have hrest : ∀ m' ∈ rest, respectsStartB m' segment = true :=
      fun m' hm' => hwf m' (List.mem_cons_of_mem m hm')
    unfold referenceGo
    cases hcase : m segment with
    | none => simpa using ih hrest
    | some hit =>
      have hge := respectsStartB_some hm hcase
      have : ¬ hit.segment.start < e.segment.start :=
        Nat.not_lt.mpr (Nat.le_trans he hge)
      simp only [this, if_false]
      exact ih hrest

theorem aggregateGo_eq_referenceGo (segment : Segment) (ms : List Matcher)
    (acc : Option ParsedMatch)
    (hwf : ∀ m ∈ ms, respectsStartB m segment = true)
    (hacc : ∀ e, acc = some e →
      segment.start ≤ e.segment.start ∧ e.segment.start ≠ segment.start) :
    aggregateGo segment ms acc = referenceGo segment ms acc := by
  induction ms generalizing acc with
  | nil => rfl
  | cons m rest ih =>
    have hm := hwf m (List.mem_cons_self m rest)
    have hrest : ∀ m' ∈ rest, respectsStartB m' segment = true :=
      fun m' hm' => hwf m' (List.mem_cons_of_mem m hm')
    have step : ∀ cand : ParsedMatch, segment.start ≤ cand.segment.start →
        (if cand.segment.start = segment.start then some cand
         else aggregateGo segment rest (some cand)) =
          referenceGo segment rest (some cand) := by
      intro cand hc
      by_cases hstop : cand.segment.start = segment.start
      · rw [if_pos hstop]
        exact (referenceGo_fixed segment rest cand hrest
          (Nat.le_of_eq hstop)).symm
      · rw [if_neg hstop]
        exact ih (some cand) hrest (fun e he => by cases he; exact ⟨hc, hstop⟩)
    cases hcase : m segment with
    | none =>
      simp only [aggregateGo, referenceGo, hcase]
      exact ih acc hrest hacc
    | some hit =>
      have hge := respectsStartB_some hm hcase
      cases acc with
      | none =>
        simp only [aggregateGo, referenceGo, hcase]
        exact step hit hge
      | some e =>
        obtain ⟨hacc1, _⟩ := hacc e rfl
        by_cases hlt : hit.segment.start < e.segment.start
        · simp only [aggregateGo, referenceGo, hcase, if_pos hlt]
          exact step hit hge
        · simp only [aggregateGo, referenceGo, hcase, if_neg hlt]
          exact step e hacc1

/-- C1: for every segment and ordered list of sub-matchers whose hits
start inside the segment, the aggregate matcher (with its early stop)
returns exactly the reference aggregator's earliest-start /
first-listed-wins result; and on `"[x](http://a)"` the full pipeline's
aggregate produces the masked-link node (an autolink node would carry the
url `"http://a)"` with itself as the only child, a different node). -/
theorem C1_aggregate_refines_reference :
    (∀ (ms : List Matcher) (seg : Segment),
       (∀ m ∈ ms, respectsStartB m seg = true) →
       aggregate_matcher ms seg = reference_aggregate ms seg) ∧
    aggregate_matcher (node_matchers (fun sel seg => parseCore 31 sel seg))
        ⟨"[x](http://a)".data, 0, 13⟩ =
      some ⟨⟨"[x](http://a)".data, 0, 13⟩, .link "http://a" (nlist [.text "x"])⟩ ∧
    mk_auto_link ⟨"[x](http://a)".data, 0, 13⟩ =
      some ⟨⟨"[x](http://a)".data, 4, 9⟩,
        .link "http://a)" (nlist [.text "http://a)"])⟩ ∧
    (MarkdownNode.link "http://a" (nlist [.text "x"]) ≠
      .link "http://a)" (nlist [.text "http://a)"])) := by
  refine ⟨fun ms seg hwf => ?_, by decide, by decide, by decide⟩
  exact aggregateGo_eq_referenceGo seg ms none hwf (by intro e h; cases h)

/-- Witness for C1: the full node-matcher list on the `"[x](http://a)"`
segment satisfies the hypothesis, and the equivalence follows from the
theorem. -/
theorem C1_witness :
    (∀ m ∈ node_matchers (fun sel seg => parseCore 31 sel seg),
       respectsStartB m ⟨"[x](http://a)".data, 0, 13⟩ = true) ∧
    aggregate_matcher (node_matchers (fun sel seg => parseCore 31 sel seg))
        ⟨"[x](http://a)".data, 0, 13⟩ =
      reference_aggregate (node_matchers (fun sel seg => parseCore 31 sel seg))
        ⟨"[x](http://a)".data, 0, 13⟩ :=
  ⟨by decide, C1_aggregate_refines_reference.1 _ _ (by decide)⟩

/-! ## C4: `"***both***"` -/

/-- C4: parsing `"***both***"` with the full pipeline yields exactly one
italic formatting node wrapping a bold formatting node wrapping the text
`"both"`. -/
theorem C4_triple_asterisk_parse :
    parse "***both***" =
      [.formatting .italic (nlist [.formatting .bold (nlist [.text "both"])])] := by
  decide

/-! ## C2: termination and the depth cap

The embedding of `_parse` is total by construction (structural recursion
on the remaining depth), for *every* input.  The cap behaviour is
`parseCore 0 sel seg = [.text seg.str]`, and the recursion budget shows up
in the output: each recursion level contributes at most one level of
container nesting, so the nesting depth of any parse is at most 32. -/

mutual
/-- Container-nesting depth contributed by parser recursion: one per
formatting/heading/link level; a list and its item wrappers are built by a
single recursion level, so `list` counts one and `listItem` is
transparent. -/
def nodeNesting : MarkdownNode → Nat
  | .text _ => 0
  | .formatting _ cs => 1 + listNesting cs
  | .heading _ cs => 1 + listNesting cs
  | .list items => 1 + listNesting items
  | .listItem cs => listNesting cs
  | .inlineCodeBlock _ => 0
  | .multiLineCodeBlock _ _ => 0
  | .link _ cs => 1 + listNesting cs
  | .mention _ _ => 0
  | .emoji _ _ _ => 0
  | .timestamp _ _ => 0

def listNesting : MarkdownNodeList → Nat
  | .nil => 0
  | .cons n rest => Nat.max (nodeNesting n) (listNesting rest)
end

def nestingOfList (l : List MarkdownNode) : Nat :=
  l.foldr (fun n acc => Nat.max (nodeNesting n) acc) 0

theorem listNesting_nlist (l : List MarkdownNode) :
    listNesting (nlist l) = nestingOfList l := by
  induction l with
  | nil => rfl
  | cons n rest ih => simp [nlist, listNesting, nestingOfList] at ih ⊢; rw [ih]

theorem nestingOfList_le {l : List MarkdownNode} {k : Nat}
    (h : ∀ n ∈ l, nodeNesting n ≤ k) : nestingOfList l ≤ k := by
  induction l with
  | nil => exact Nat.zero_le k
  | cons n rest ih =>
    simp only [nestingOfList, List.foldr] at ih ⊢
    exact Nat.max_le.mpr ⟨h n (List.mem_cons_self n rest),
      ih (fun n' hn' => h n' (List.mem_cons_of_mem n hn'))⟩

theorem nestingOfList_append (a b : List MarkdownNode) :
    nestingOfList (a ++ b) = Nat.max (nestingOfList a) (nestingOfList b) := by
  induction a with
  | nil => simp [nestingOfList]
  | cons n rest ih =>
    simp only [nestingOfList, List.foldr, List.cons_append, List.append_eq]
      at ih ⊢
    rw [ih]
    exact (Nat.max_assoc _ _ _).symm

/-- Every node `_match_all` emits is either a literal text node or the
value of a hit the matcher produced on some sub-segment. -/
theorem matchAllGo_mem {m : Matcher} {segment : Segment} {fuel cur : Nat}
    {n : MarkdownNode} (hn : n ∈ matchAllGo m segment fuel cur) :
    (∃ t, n = .text t) ∨
    ∃ seg' hit, m seg' = some hit ∧ n = hit.value := by
  induction fuel generalizing cur with
  | zero =>
    simp only [matchAllGo] at hn
    split at hn
    · exact Or.inl ⟨_, (List.mem_singleton.mp hn)⟩
    · cases hn
  | succ fuel ih =>
    simp only [matchAllGo] at hn
    split at hn
    case isTrue hcur =>
      revert hn
      cases hcase : m (segment.relocate cur (segment.endPos - cur)) with
      | none =>
        intro hn
        exact Or.inl ⟨_, List.mem_singleton.mp hn⟩
      | some hit =>
        simp only [forceNat_eq]
        intro hn
        rcases List.mem_append.mp hn with hgap | hrest
        · left
          by_cases hlt : cur < hit.segment.start
          · rw [if_pos hlt] at hgap
            exact ⟨_, List.mem_singleton.mp hgap⟩
          · rw [if_neg hlt] at hgap
            cases hgap
        · rcases List.mem_cons.mp hrest with rfl | htail
          · exact Or.inr ⟨_, hit, hcase, rfl⟩
          · exact ih htail
    case isFalse => cases hn

/-- Every hit the aggregate returns was produced by one of its matchers
(or was the accumulator). -/
theorem aggregateGo_mem {segment : Segment} {ms : List Matcher}
    {acc : Option ParsedMatch} {e : ParsedMatch}
    (h : aggregateGo segment ms acc = some e) :
    acc = some e ∨ ∃ m ∈ ms, m segment = some e := by
  induction ms generalizing acc with
  | nil => exact Or.inl h
  | cons m rest ih =>
    have liftRest : ∀ {a : Option ParsedMatch},
        (a = some e ∨ ∃ m' ∈ rest, m' segment = some e) →
        (a = some e ∨ ∃ m' ∈ m :: rest, m' segment = some e) :=
      fun hx => hx.imp_right
        (fun ⟨m', hm', hx'⟩ => ⟨m', List.mem_cons_of_mem m hm', hx'⟩)
    have handleCand : ∀ cand : ParsedMatch,
        (candSrc : acc = some cand ∨ m segment = some cand) →
        (if cand.segment.start = segment.start then some cand
         else aggregateGo segment rest (some cand)) = some e →
        acc = some e ∨ ∃ m' ∈ m :: rest, m' segment = some e := by
      intro cand hsrc hh
      have fromCand : cand = e →
          acc = some e ∨ ∃ m' ∈ m :: rest, m' segment = some e := by
        rintro rfl
        rcases hsrc with hs | hs
        · exact Or.inl hs
        · exact Or.inr ⟨m, List.mem_cons_self m rest, hs⟩
      by_cases hstop : cand.segment.start = segment.start
      · rw [if_pos hstop] at hh
        exact fromCand (Option.some.inj hh)
      · rw [if_neg hstop] at hh
        rcases ih hh with hx | hx
        · exact fromCand (Option.some.inj hx)
        · exact liftRest (Or.inr hx)
    rcases hcase : m segment with _ | hit
    · simp only [aggregateGo, hcase] at h
      exact liftRest (ih h)
    · cases acc with
      | none =>
        simp only [aggregateGo, hcase] at h
        exact handleCand hit (Or.inr hcase) h
      | some e0 =>
        by_cases hlt : hit.segment.start < e0.segment.start
        · simp only [aggregateGo, hcase, if_pos hlt] at h
          exact handleCand hit (Or.inr hcase) h
        · simp only [aggregateGo, hcase, if_neg hlt] at h
          exact handleCand e0 (Or.inl rfl) h

/-- A hit of a `regex_matcher` carries a value the transform produced. -/
theorem regex_matcher_value {pat : Regex}
    {tf : Segment → SearchHit → Option MarkdownNode} {seg : Segment}
    {hit : ParsedMatch} (h : regex_matcher pat tf seg = some hit) :
    ∃ s' hh, tf s' hh = some hit.value := by
  unfold regex_matcher at h
  rcases hr : rsearch seg.source pat seg.start seg.endPos with _ | sh
  · simp only [hr] at h
    exact Option.noConfusion h
  · simp only [hr] at h
    split at h
    · cases h
    · rcases ht : tf (seg.relocate sh.mstart (sh.mend - sh.mstart)) sh with _ | node
      · simp only [ht] at h
        exact Option.noConfusion h
      · simp only [ht, Option.some.injEq] at h
        subst h
        exact ⟨_, sh, ht⟩

/-- A hit of a `string_matcher` carries a value the transform produced. -/
theorem string_matcher_value {needle : List Char}
    {tf : Segment → MarkdownNode} {seg : Segment} {hit : ParsedMatch}
    (h : string_matcher needle tf seg = some hit) :
    ∃ s', tf s' = hit.value := by
  unfold string_matcher at h
  rcases hf : strFind seg.source needle seg.start seg.endPos with _ | idx
  · simp only [hf] at h
    exact Option.noConfusion h
  · simp only [hf, Option.some.injEq] at h
    subst h
    exact ⟨_, rfl⟩

theorem nodeNesting_LinkNode (url : String) (cs : MarkdownNodeList) :
    nodeNesting (LinkNode url cs) ≤ 1 + listNesting cs := by
  cases cs with
  | nil =>
    simp only [LinkNode, nodeNesting, listNesting, nlist, Nat.max_self]
    exact Nat.le_refl _
  | cons n rest => exact Nat.le_refl _

theorem nodeNesting_timestampNodeOf (e : Int) (r : Option Char) :
    nodeNesting (timestampNodeOf e r) = 0 := by
  unfold timestampNodeOf TIMESTAMP_INVALID
  split
  · rfl
  · rcases r with _ | c
    · rfl
    · by_cases hsp : isSpacePy c = true
      · simp [hsp, nodeNesting]
      · simp only [hsp, Bool.false_eq_true, if_false]
        split
        · rfl
        · split <;> rfl

theorem nestingOfList_flatMap {α : Type} (xs : List α)
    (g : α → List MarkdownNode) {k : Nat}
    (h : ∀ x, nestingOfList (g x) ≤ k) : nestingOfList (xs.flatMap g) ≤ k := by
  induction xs with
  | nil => exact Nat.zero_le k
  | cons x rest ih =>
    rw [List.flatMap_cons, nestingOfList_append]
    exact Nat.max_le.mpr ⟨h x, ih⟩

theorem nestingOfList_map_listItem {α : Type} (xs : List α)
    (g : α → MarkdownNodeList) {k : Nat}
    (h : ∀ x, listNesting (g x) ≤ k) :
    nestingOfList (xs.map (fun x => MarkdownNode.listItem (g x))) ≤ k := by
  refine nestingOfList_le (fun n hn => ?_)
  obtain ⟨im, _, rfl⟩ := List.mem_map.mp hn
  simpa [nodeNesting] using h im

/-- Any hit of a matcher in the full pipeline has a value whose container
nesting exceeds the child parses' nesting by at most one level. -/
theorem node_matchers_value_nesting
    {recf : MSel → Segment → List MarkdownNode} {f : Nat}
    (hrec : ∀ sel seg, nestingOfList (recf sel seg) ≤ f)
    {m : Matcher} (hm : m ∈ node_matchers recf)
    {seg : Segment} {hit : ParsedMatch} (h : m seg = some hit) :
    nodeNesting hit.value ≤ f + 1 := by
  simp only [node_matchers, List.mem_cons, List.not_mem_nil, or_false] at hm
  rcases hm with rfl|rfl|rfl|rfl|rfl|rfl|rfl|rfl|rfl|rfl|rfl|rfl|rfl|rfl|rfl|rfl|rfl|rfl|rfl|rfl|rfl|rfl|rfl|rfl|rfl|rfl|rfl|rfl|rfl|rfl|rfl
  -- mk_shrug_text
  · obtain ⟨s', ht⟩ := string_matcher_value h
    rw [← ht]; simp [nodeNesting]
  -- mk_ignored_emoji_text
  · obtain ⟨s', hh, ht⟩ := regex_matcher_value h
    simp only [Option.some.injEq] at ht
    rw [← ht]; simp [nodeNesting]
  -- mk_escaped_symbol_text
  · obtain ⟨s', hh, ht⟩ := regex_matcher_value h
    simp only [Option.some.injEq] at ht
    rw [← ht]; simp [nodeNesting]
  -- mk_escaped_character_text
  · obtain ⟨s', hh, ht⟩ := regex_matcher_value h
    simp only [Option.some.injEq] at ht
    rw [← ht]; simp [nodeNesting]
  -- mk_italic_bold
  · obtain ⟨s', hh, ht⟩ := regex_matcher_value h
    simp only [Option.some.injEq] at ht
    rw [← ht]; simp only [nodeNesting, listNesting_nlist]
    have := hrec .boldOnly (segFromGroup s' hh 1); omega
  -- mk_italic_underline
  · obtain ⟨s', hh, ht⟩ := regex_matcher_value h
    simp only [Option.some.injEq] at ht
    rw [← ht]; simp only [nodeNesting, listNesting_nlist]
    have := hrec .underlineOnly (segFromGroup s' hh 1); omega
  -- mk_bold
  · obtain ⟨s', hh, ht⟩ := regex_matcher_value h
    simp only [Option.some.injEq] at ht
    rw [← ht]; simp only [nodeNesting, listNesting_nlist]
    have := hrec .node (segFromGroup s' hh 1); omega
  -- mk_italic
  · obtain ⟨s', hh, ht⟩ := regex_matcher_value h
    simp only [Option.some.injEq] at ht
    rw [← ht]; simp only [nodeNesting, listNesting_nlist]
    have := hrec .node (segFromGroup s' hh 1); omega
  -- mk_underline
  · obtain ⟨s', hh, ht⟩ := regex_matcher_value h
    simp only [Option.some.injEq] at ht
    rw [← ht]; simp only [nodeNesting, listNesting_nlist]
    have := hrec .node (segFromGroup s' hh 1); omega
  -- mk_italic_alt
  · obtain ⟨s', hh, ht⟩ := regex_matcher_value h
    simp only [Option.some.injEq] at ht
    rw [← ht]; simp only [nodeNesting, listNesting_nlist]
    have := hrec .node (segFromGroup s' hh 1); omega
  -- mk_strikethrough
  · obtain ⟨s', hh, ht⟩ := regex_matcher_value h
    simp only [Option.some.injEq] at ht
    rw [← ht]; simp only [nodeNesting, listNesting_nlist]
    have := hrec .node (segFromGroup s' hh 1); omega
  -- mk_spoiler
  · obtain ⟨s', hh, ht⟩ := regex_matcher_value h
    simp only [Option.some.injEq] at ht
    rw [← ht]; simp only [nodeNesting, listNesting_nlist]
    have := hrec .node (segFromGroup s' hh 1); omega
  -- mk_multi_line_quote
  · obtain ⟨s', hh, ht⟩ := regex_matcher_value h
    simp only [Option.some.injEq] at ht
    rw [← ht]; simp only [nodeNesting, listNesting_nlist]
    have := hrec .node (segFromGroup s' hh 1); omega
  -- mk_repeated_single_line_quote
  · obtain ⟨s', hh, ht⟩ := regex_matcher_value h
    simp only [Option.some.injEq] at ht
    rw [← ht]; simp only [nodeNesting, listNesting_nlist]
    have hb := nestingOfList_flatMap
      (rfinditer s'.source quoteLinePat hh.mstart hh.mend)
      (fun lm => recf .node (segFromGroup s' lm 1))
      (fun lm => hrec .node (segFromGroup s' lm 1))
    omega
  -- mk_single_line_quote
  · obtain ⟨s', hh, ht⟩ := regex_matcher_value h
    simp only [Option.some.injEq] at ht
    rw [← ht]; simp only [nodeNesting, listNesting_nlist]
    have := hrec .node (segFromGroup s' hh 1); omega
  -- mk_heading
  · obtain ⟨s', hh, ht⟩ := regex_matcher_value h
    simp only [Option.some.injEq] at ht
    rw [← ht]; simp only [nodeNesting, listNesting_nlist]
    have := hrec .node (segFromGroup s' hh 2); omega
  -- mk_list
  · obtain ⟨s', hh, ht⟩ := regex_matcher_value h
    simp only [Option.some.injEq] at ht
    rw [← ht]; simp only [nodeNesting, listNesting_nlist]
    have hb : nestingOfList
        ((rfinditer s'.source (listItemPat ((groupStr s'.source hh 1).getD []))
          hh.mstart hh.mend).map
          (fun im => MarkdownNode.listItem
            (nlist (recf .node (segFromGroup s' im 1))))) ≤ f :=
      nestingOfList_map_listItem _ _ (fun im => by
        rw [listNesting_nlist]; exact hrec .node (segFromGroup s' im 1))
    omega
  -- mk_multi_line_code_block
  · obtain ⟨s', hh, ht⟩ := regex_matcher_value h
    simp only [Option.some.injEq] at ht
    rw [← ht]; simp [nodeNesting]
  -- mk_inline_code_block
  · obtain ⟨s', hh, ht⟩ := regex_matcher_value h
    simp only [Option.some.injEq] at ht
    rw [← ht]; simp [nodeNesting]
  -- mk_everyone_mention
  · obtain ⟨s', ht⟩ := string_matcher_value h
    rw [← ht]; simp [nodeNesting]
  -- mk_here_mention
  · obtain ⟨s', ht⟩ := string_matcher_value h
    rw [← ht]; simp [nodeNesting]
  -- mk_user_mention
  · obtain ⟨s', hh, ht⟩ := regex_matcher_value h
    simp only [Option.some.injEq] at ht
    rw [← ht]; simp [nodeNesting]
  -- mk_channel_mention
  · obtain ⟨s', hh, ht⟩ := regex_matcher_value h
    simp only [Option.some.injEq] at ht
    rw [← ht]; simp [nodeNesting]
  -- mk_role_mention
  · obtain ⟨s', hh, ht⟩ := regex_matcher_value h
    simp only [Option.some.injEq] at ht
    rw [← ht]; simp [nodeNesting]
  -- mk_masked_link
  · obtain ⟨s', hh, ht⟩ := regex_matcher_value h
    simp only [Option.some.injEq] at ht
    rw [← ht]
    have h1 := nodeNesting_LinkNode ⟨(groupStr s'.source hh 2).getD []⟩
      (nlist (recf .node (segFromGroup s' hh 1)))
    rw [listNesting_nlist] at h1
    have h2 := hrec .node (segFromGroup s' hh 1)
    omega
  -- mk_auto_link
  · obtain ⟨s', hh, ht⟩ := regex_matcher_value h
    simp only [Option.some.injEq] at ht
    rw [← ht]
    have h1 := nodeNesting_LinkNode ⟨(groupStr s'.source hh 1).getD []⟩ .nil
    simp only [listNesting] at h1
    omega
  -- mk_hidden_link
  · obtain ⟨s', hh, ht⟩ := regex_matcher_value h
    simp only [Option.some.injEq] at ht
    rw [← ht]
    have h1 := nodeNesting_LinkNode ⟨(groupStr s'.source hh 1).getD []⟩ .nil
    simp only [listNesting] at h1
    omega
  -- mk_standard_emoji
  · obtain ⟨s', hh, ht⟩ := regex_matcher_value h
    simp only [Option.some.injEq] at ht
    rw [← ht]; simp [nodeNesting]
  -- mk_custom_emoji
  · obtain ⟨s', hh, ht⟩ := regex_matcher_value h
    simp only [Option.some.injEq] at ht
    rw [← ht]; simp [nodeNesting]
  -- mk_coded_standard_emoji
  · obtain ⟨s', hh, ht⟩ := regex_matcher_value h
    simp only [CODE_TO_EMOJI] at ht
    exact Option.noConfusion ht
  -- mk_timestamp
  · obtain ⟨s', hh, ht⟩ := regex_matcher_value h
    simp only [] at ht
    split at ht
    · simp only [Option.some.injEq] at ht
      rw [← ht]; simp [TIMESTAMP_INVALID, nodeNesting]
    · simp only [Option.some.injEq] at ht
      rw [← ht, nodeNesting_timestampNodeOf]
      omega

/-- Any hit of a matcher in the minimal pipeline has a leaf value. -/
theorem minimal_matchers_value_nesting
    {m : Matcher} (hm : m ∈ minimal_matchers)
    {seg : Segment} {hit : ParsedMatch} (h : m seg = some hit) :
    nodeNesting hit.value = 0 := by
  simp only [minimal_matchers, List.mem_cons, List.not_mem_nil, or_false] at hm
  rcases hm with rfl|rfl|rfl|rfl|rfl|rfl|rfl
  · obtain ⟨s', ht⟩ := string_matcher_value h
    rw [← ht]; simp [nodeNesting]
  · obtain ⟨s', ht⟩ := string_matcher_value h
    rw [← ht]; simp [nodeNesting]
  · obtain ⟨s', hh, ht⟩ := regex_matcher_value h
    simp only [Option.some.injEq] at ht
    rw [← ht]; simp [nodeNesting]
  · obtain ⟨s', hh, ht⟩ := regex_matcher_value h
    simp only [Option.some.injEq] at ht
    rw [← ht]; simp [nodeNesting]
  · obtain ⟨s', hh, ht⟩ := regex_matcher_value h
    simp only [Option.some.injEq] at ht
    rw [← ht]; simp [nodeNesting]
  · obtain ⟨s', hh, ht⟩ := regex_matcher_value h
    simp only [Option.some.injEq] at ht
    rw [← ht]; simp [nodeNesting]
  · obtain ⟨s', hh, ht⟩ := regex_matcher_value h
    simp only [] at ht
    split at ht
    · simp only [Option.some.injEq] at ht
      rw [← ht]; simp [TIMESTAMP_INVALID, nodeNesting]
    · simp only [Option.some.injEq] at ht
      rw [← ht]
      exact nodeNesting_timestampNodeOf _ _

/-- Nesting of one `_parse` level is bounded by its remaining depth. -/
theorem parseCore_nesting : ∀ (f : Nat) (sel : MSel) (seg : Segment),
    nestingOfList (parseCore f sel seg) ≤ f := by
  intro f
  induction f with
  | zero =>
    intro sel seg
    simp [parseCore, nestingOfList, nodeNesting]
  | succ f ih =>
    intro sel seg
    refine nestingOfList_le (fun n hn => ?_)
    rcases matchAllGo_mem hn with ⟨t, rfl⟩ | ⟨seg', hit, hhit, rfl⟩
    · simp [nodeNesting]
    · cases sel with
      | node =>
        rcases aggregateGo_mem hhit with hx | ⟨m, hmem, hx⟩
        · exact Option.noConfusion hx
        · exact node_matchers_value_nesting ih hmem hx
      | boldOnly =>
        simp only [matcherFor, mk_bold] at hhit
        obtain ⟨s', hh, ht⟩ := regex_matcher_value hhit
        simp only [Option.some.injEq] at ht
        rw [← ht]; simp only [nodeNesting, listNesting_nlist]
        have := ih .node (segFromGroup s' hh 1); omega
      | underlineOnly =>
        simp only [matcherFor, mk_underline] at hhit
        obtain ⟨s', hh, ht⟩ := regex_matcher_value hhit
        simp only [Option.some.injEq] at ht
        rw [← ht]; simp only [nodeNesting, listNesting_nlist]
        have := ih .node (segFromGroup s' hh 1); omega
      | minimal =>
        rcases aggregateGo_mem hhit with hx | ⟨m, hmem, hx⟩
        · exact Option.noConfusion hx
        · rw [minimal_matchers_value_nesting hmem hx]
          omega

/-- C2: the embedded `_parse` is total for every input with the recursion
budget 32 (`parse md = parseCore 32 ...` by definition, and each level
recurses only at one fuel less), the cap emits the remaining segment
verbatim as a single text node, and the recursion bound is visible in the
output: no parse nests containers deeper than 32 levels. -/
theorem C2_depth_cap :
    (∀ md : String, nestingOfList (parse md) ≤ MAX_DEPTH) ∧
    (∀ (sel : MSel) (seg : Segment), parseCore 0 sel seg = [.text seg.str]) :=
  ⟨fun _ => parseCore_nesting MAX_DEPTH .node _, fun _ _ => rfl⟩

/-! ## C3: one `_match_all` pass covers the segment

`match_all_spans` mirrors `_match_all` step for step, additionally
recording for each emitted node whether it is a gap/tail text node
(`false`) or a matched node (`true`), together with the half-open span of
source positions it accounts for.  The three facts proved about it are:
projecting the nodes gives exactly `match_all`; under the well-formedness
that every hit lies inside the queried sub-segment and is nonempty, the
spans chain from `segment.start` to `segment.endPos` with no hole; and
every gap span's node is the literal text of its span.  Chained spans
concatenate to the whole segment (`spansChain_join`). -/

def matchAllSpansGo (m : Matcher) (segment : Segment) :
    Nat → Nat → List ((Bool × Nat × Nat) × MarkdownNode)
  | 0, current =>
    if current < segment.endPos
    then [((false, current, segment.endPos),
           .text ⟨sliceCh segment.source current segment.endPos⟩)]
    else []
  | fuel+1, current =>
    if current < segment.endPos then
      match m (segment.relocate current (segment.endPos - current)) with
      | none => [((false, current, segment.endPos),
                  .text ⟨sliceCh segment.source current segment.endPos⟩)]
      | some hit =>
        forceNat hit.segment.start (fun hs =>
          forceNat (hs + hit.segment.length) (fun next =>
            (if current < hs
             then [((false, current, hs),
                    MarkdownNode.text ⟨sliceCh segment.source current hs⟩)]
             else []) ++
            ((true, hs, next), hit.value) ::
              matchAllSpansGo m segment fuel next))
    else []

def match_all_spans (m : Matcher) (segment : Segment) :
    List ((Bool × Nat × Nat) × MarkdownNode) :=
  matchAllSpansGo m segment (segment.length + 1) segment.start

/-- Consecutive spans starting exactly at `a` and ending exactly at `b`. -/
def spansChain : List (Bool × Nat × Nat) → Nat → Nat → Prop
  | [], a, b => a = b
  | sp :: rest, a, b => sp.2.1 = a ∧ sp.2.1 ≤ sp.2.2 ∧ spansChain rest sp.2.2 b

/-- Decidable well-formedness of the matcher's hit on the sub-segment at
cursor `cur`: the hit lies inside the sub-segment and is nonempty. -/
def hitWithinB (m : Matcher) (segment : Segment) (cur : Nat) : Bool :=
  match m (segment.relocate cur (segment.endPos - cur)) with
  | some hit =>
    decide (cur ≤ hit.segment.start) &&
    decide (hit.segment.start + hit.segment.length ≤ segment.endPos) &&
    decide (1 ≤ hit.segment.length)
  | none => true

theorem hitWithinB_some {m : Matcher} {segment : Segment} {cur : Nat}
    {hit : ParsedMatch} (h : hitWithinB m segment cur = true)
    (hm : m (segment.relocate cur (segment.endPos - cur)) = some hit) :
    cur ≤ hit.segment.start ∧
    hit.segment.start + hit.segment.length ≤ segment.endPos ∧
    1 ≤ hit.segment.length := by
  unfold hitWithinB at h
  rw [hm] at h
  simp only [Bool.and_eq_true, decide_eq_true_eq] at h
  exact ⟨h.1.1, h.1.2, h.2⟩

theorem matchAllSpansGo_snd (m : Matcher) (segment : Segment) :
    ∀ (fuel cur : Nat),
    (matchAllSpansGo m segment fuel cur).map Prod.snd =
      matchAllGo m segment fuel cur := by
  intro fuel
  induction fuel with
  | zero =>
    intro cur
    simp only [matchAllSpansGo, matchAllGo]
    split <;> simp
  | succ fuel ih =>
    intro cur
    simp only [matchAllSpansGo, matchAllGo]
    split
    · cases hcase : m (segment.relocate cur (segment.endPos - cur)) with
      | none => simp
      | some hit =>
        simp only [forceNat_eq, List.map_append, List.map_cons, ih]
        split <;> simp
    · rfl

theorem matchAllSpansGo_chain (m : Matcher) (segment : Segment)
    (hwf : ∀ cur, cur < segment.endPos → hitWithinB m segment cur = true) :
    ∀ (fuel cur : Nat), cur ≤ segment.endPos →
    spansChain ((matchAllSpansGo m segment fuel cur).map Prod.fst) cur
      segment.endPos := by
  intro fuel
  induction fuel with
  | zero =>
    intro cur hcur
    simp only [matchAllSpansGo]
    split
    · exact ⟨rfl, hcur, rfl⟩
    · exact Nat.le_antisymm hcur (Nat.le_of_not_lt (by assumption))
  | succ fuel ih =>
    intro cur hcur
    simp only [matchAllSpansGo]
    split
    case isTrue hlt =>
      cases hcase : m (segment.relocate cur (segment.endPos - cur)) with
      | none => exact ⟨rfl, hcur, rfl⟩
      | some hit =>
        obtain ⟨hw1, hw2, hw3⟩ := hitWithinB_some (hwf cur hlt) hcase
        simp only [forceNat_eq]
        have hnext : hit.segment.start ≤ hit.segment.start + hit.segment.length :=
          Nat.le_add_right _ _
        have htail := ih (hit.segment.start + hit.segment.length) hw2
        by_cases hgap : cur < hit.segment.start
        · rw [if_pos hgap]
          exact ⟨rfl, Nat.le_of_lt hgap, rfl, hnext, htail⟩
        · rw [if_neg hgap]
          have : hit.segment.start = cur :=
            Nat.le_antisymm (Nat.le_of_not_lt hgap) hw1
          exact ⟨this, hnext, htail⟩
    case isFalse hge =>
      exact Nat.le_antisymm hcur (Nat.le_of_not_lt hge)

theorem matchAllSpansGo_gap_text (m : Matcher) (segment : Segment) :
    ∀ (fuel cur : Nat) (sp : Bool × Nat × Nat) (n : MarkdownNode),
    (sp, n) ∈ matchAllSpansGo m segment fuel cur → sp.1 = false →
    n = .text ⟨sliceCh segment.source sp.2.1 sp.2.2⟩ := by
  intro fuel
  induction fuel with
  | zero =>
    intro cur sp n hmem _
    simp only [matchAllSpansGo] at hmem
    split at hmem
    · obtain ⟨h1, h2⟩ := Prod.mk.injEq .. ▸ List.mem_singleton.mp hmem
      subst h1; subst h2; rfl
    · cases hmem
  | succ fuel ih =>
    intro cur sp n hmem hfalse
    simp only [matchAllSpansGo] at hmem
    split at hmem
    · revert hmem
      cases hcase : m (segment.relocate cur (segment.endPos - cur)) with
      | none =>
        intro hmem
        obtain ⟨h1, h2⟩ := Prod.mk.injEq .. ▸ List.mem_singleton.mp hmem
        subst h1; subst h2; rfl
      | some hit =>
        simp only [forceNat_eq]
        intro hmem
        rcases List.mem_append.mp hmem with hg | hrest
        · by_cases hgap : cur < hit.segment.start
          · rw [if_pos hgap] at hg
            obtain ⟨h1, h2⟩ := Prod.mk.injEq .. ▸ List.mem_singleton.mp hg
            subst h1; subst h2; rfl
          · rw [if_neg hgap] at hg
            cases hg
        · rcases List.mem_cons.mp hrest with heq | htail
          · obtain ⟨h1, _⟩ := Prod.mk.injEq .. ▸ heq
            subst h1
            cases hfalse
          · exact ih _ _ _ htail hfalse
    · cases hmem

theorem spansChain_le :
    ∀ (spans : List (Bool × Nat × Nat)) (a b : Nat), spansChain spans a b →
    a ≤ b := by
  intro spans
  induction spans with
  | nil => intro a b hc; exact Nat.le_of_eq hc
  | cons sp rest ih =>
    intro a b hc
    obtain ⟨h1, h2, h3⟩ := hc
    have := ih _ _ h3
    omega

/-- Chained spans concatenate to the slice they cover. -/
theorem spansChain_join (s : List Char) :
    ∀ (spans : List (Bool × Nat × Nat)) (a b : Nat), spansChain spans a b →
    (spans.map (fun sp => sliceCh s sp.2.1 sp.2.2)).flatten = sliceCh s a b := by
  intro spans
  induction spans with
  | nil =>
    intro a b hc
    cases hc
    simp [sliceCh]
  | cons sp rest ih =>
    intro a b hc
    obtain ⟨h1, h2, h3⟩ := hc
    subst h1
    have hb := spansChain_le rest _ _ h3
    simp only [List.map_cons, List.flatten_cons, ih _ _ h3]
    unfold sliceCh
    have hdrop : s.drop sp.2.2 = (s.drop sp.2.1).drop (sp.2.2 - sp.2.1) := by
      rw [List.drop_drop]
      congr 1
      omega
    rw [hdrop, ← List.take_add]
    congr 1
    omega

/-- C3: one `_match_all` pass drops no characters: the pass decomposes into
consecutive spans covering the segment exactly — every position is inside a
matched span or inside a gap/tail text span, gap/tail spans carry the
literal text of their span, and concatenating all spans reproduces the
whole segment.  (`match_all` is the node projection of the instrumented
pass; the tail text node is omitted exactly when the tail is empty, which
is the chain ending at `segment.endPos`.) -/
theorem C3_match_all_coverage :
    (∀ (m : Matcher) (segment : Segment),
      match_all m segment = (match_all_spans m segment).map Prod.snd) ∧
    (∀ (m : Matcher) (segment : Segment),
      (∀ cur, cur < segment.endPos → hitWithinB m segment cur = true) →
      segment.start ≤ segment.endPos →
      spansChain ((match_all_spans m segment).map Prod.fst) segment.start
        segment.endPos) ∧
    (∀ (m : Matcher) (segment : Segment) (sp : Bool × Nat × Nat)
       (n : MarkdownNode), (sp, n) ∈ match_all_spans m segment →
      sp.1 = false → n = .text ⟨sliceCh segment.source sp.2.1 sp.2.2⟩) ∧
    (∀ (s : List Char) (spans : List (Bool × Nat × Nat)) (a b : Nat),
      spansChain spans a b →
      (spans.map (fun sp => sliceCh s sp.2.1 sp.2.2)).flatten =
        sliceCh s a b) := by
  refine ⟨fun m segment => ?_, fun m segment hwf hse => ?_,
    fun m segment sp n hmem hf => ?_, fun s spans a b hc => ?_⟩
  · exact (matchAllSpansGo_snd m segment _ _).symm
  · exact matchAllSpansGo_chain m segment hwf _ _ hse
  · exact matchAllSpansGo_gap_text m segment _ _ sp n hmem hf
  · exact spansChain_join s spans a b hc

/-- Witness for C3: the minimal pipeline on `"hi <@1> x"` satisfies the
hit well-formedness bound, and the spans of the pass chain across the
whole segment. -/
theorem C3_witness :
    (∀ cur, cur < (Segment.mk "hi <@1> x".data 0 9).endPos →
      hitWithinB (aggregate_matcher minimal_matchers)
        (Segment.mk "hi <@1> x".data 0 9) cur = true) ∧
    (0 : Nat) ≤ (Segment.mk "hi <@1> x".data 0 9).endPos ∧
    spansChain
      ((match_all_spans (aggregate_matcher minimal_matchers)
        (Segment.mk "hi <@1> x".data 0 9)).map Prod.fst) 0
      (Segment.mk "hi <@1> x".data 0 9).endPos :=
  ⟨by decide, by decide,
   C3_match_all_coverage.2.1 (aggregate_matcher minimal_matchers)
     (Segment.mk "hi <@1> x".data 0 9) (by decide) (by decide)⟩

/-! ## C7: the minimal pipeline passes untokenised text through -/

/-- C7: when the minimal pipeline's aggregate matcher finds no token
anywhere in the (nonempty) input — i.e. the text contains no mention, no
custom-emoji and no timestamp token, only formatting markers and ordinary
text — `parse_minimal` returns exactly one text node holding the whole
input. -/
theorem C7_minimal_passthrough (md : String) (hne : md ≠ "")
    (hnotok : aggregate_matcher minimal_matchers
      ⟨md.data, 0, md.data.length⟩ = none) :
    parse_minimal md = [.text md] := by
  have hdata : md.data ≠ [] := by
    intro h
    exact hne (by cases md; cases h; rfl)
  have hlen : 0 < md.data.length := List.length_pos.mpr hdata
  show match_all
      (matcherFor .minimal (fun sel' seg' => parseCore 31 sel' seg'))
      ⟨md.data, 0, md.data.length⟩ = [.text md]
  unfold match_all
  simp only [matchAllGo, Segment.endPos, Segment.relocate, Nat.zero_add,
    Nat.sub_zero, if_pos hlen]
  have : matcherFor .minimal (fun sel' seg' => parseCore 31 sel' seg')
      ⟨md.data, 0, md.data.length⟩ = none := hnotok
  rw [this]
  have : sliceCh md.data 0 md.data.length = md.data := by
    simp [sliceCh]
  rw [this]

/-- Witness for C7: `"**bold** [link](x)"` contains no minimal-pipeline
token, and parses to itself as a single text node. -/
theorem C7_witness :
    ("**bold** [link](x)" : String) ≠ "" ∧
    aggregate_matcher minimal_matchers
      ⟨"**bold** [link](x)".data, 0, "**bold** [link](x)".data.length⟩ = none ∧
    parse_minimal "**bold** [link](x)" = [.text "**bold** [link](x)"] :=
  ⟨by decide, by decide,
   C7_minimal_passthrough "**bold** [link](x)" (by decide) (by decide)⟩

/-! ## C6: timestamp semantics and the invalid sentinel -/

/-- C6: parsed timestamp tokens keep `t/T/d/D/f/F` as the node's format;
`r/R` are accepted but collapse to the default style (format absent); any
other format code, or an epoch outside `datetime`'s range (such as
`99999999999999999`), yields the reserved invalid sentinel — never a
raised error (the embedded transform is a total function) — and the
sentinel renders as the fixed string `"Invalid date"` in the plain-text
renderer and inside the fixed span of the hypertext renderer. -/
theorem timestampNodeOf_valid (e : Int) (c : Char)
    (hv : fromtimestampValid e = true) (hsp : isSpacePy c = false) :
    timestampNodeOf e (some c) =
      if c = 't' || c = 'T' || c = 'd' || c = 'D' || c = 'f' || c = 'F'
      then .timestamp (some e) (some c)
      else if c = 'r' || c = 'R' then .timestamp (some e) none
      else TIMESTAMP_INVALID := by
  unfold timestampNodeOf
  simp only [hv, hsp, Bool.not_true, Bool.false_eq_true, if_false]

theorem timestampNodeOf_invalid (e : Int) (r : Option Char)
    (hv : fromtimestampValid e = false) :
    timestampNodeOf e r = TIMESTAMP_INVALID := by
  unfold timestampNodeOf
  rw [hv]
  rfl

theorem C6_timestamp_semantics :
    (∀ (e : Int) (c : Char), fromtimestampValid e = true →
      (c = 't' ∨ c = 'T' ∨ c = 'd' ∨ c = 'D' ∨ c = 'f' ∨ c = 'F') →
      timestampNodeOf e (some c) = .timestamp (some e) (some c)) ∧
    (∀ (e : Int) (c : Char), fromtimestampValid e = true →
      (c = 'r' ∨ c = 'R') →
      timestampNodeOf e (some c) = .timestamp (some e) none) ∧
    (∀ (e : Int) (c : Char),
      ¬(c = 't' ∨ c = 'T' ∨ c = 'd' ∨ c = 'D' ∨ c = 'f' ∨ c = 'F' ∨
        c = 'r' ∨ c = 'R') → isSpacePy c = false →
      timestampNodeOf e (some c) = TIMESTAMP_INVALID) ∧
    (∀ (e : Int) (r : Option Char), fromtimestampValid e = false →
      timestampNodeOf e r = TIMESTAMP_INVALID) ∧
    parse_minimal "<t:99999999999999999:f>" = [TIMESTAMP_INVALID] ∧
    (∀ ctx : ExportContext,
      plainVisitNode ctx TIMESTAMP_INVALID = (ctx, "Invalid date")) ∧
    (∀ (ctx : ExportContext) (j : Bool),
      htmlVisitNode ctx j TIMESTAMP_INVALID =
        (ctx, "<span class=\"chatlog__markdown-timestamp\" " ++
          "title=\"\">Invalid date</span>")) := by
  refine ⟨?_, ?_, ?_, ?_, by decide, fun _ => rfl, fun _ _ => rfl⟩
  · intro e c hv hc
    rcases hc with rfl|rfl|rfl|rfl|rfl|rfl <;>
      rw [timestampNodeOf_valid _ _ hv (by decide), if_pos (by decide)]
  · intro e c hv hc
    rcases hc with rfl|rfl <;>
      rw [timestampNodeOf_valid _ _ hv (by decide), if_neg (by decide),
        if_pos (by decide)]
  · intro e c hnot hsp
    push_neg at hnot
    obtain ⟨h1, h2, h3, h4, h5, h6, h7, h8⟩ := hnot
    by_cases hv : fromtimestampValid e = true
    · rw [timestampNodeOf_valid _ _ hv hsp,
        if_neg (by simp only [Bool.or_eq_true, decide_eq_true_eq]; tauto),
        if_neg (by simp only [Bool.or_eq_true, decide_eq_true_eq]; tauto)]
    · exact timestampNodeOf_invalid _ _ (Bool.not_eq_true _ ▸ hv)
  · intro e r hv
    exact timestampNodeOf_invalid _ _ hv

/-- Witness for C6: format code `f` at epoch 0 is kept. -/
theorem C6_witness :
    fromtimestampValid 0 = true ∧
    timestampNodeOf 0 (some 'f') = .timestamp (some 0) (some 'f') :=
  ⟨by decide, C6_timestamp_semantics.1 0 'f' (by decide) (by decide)⟩

/-! ## C9: unresolvable mentions degrade to fixed placeholders -/

/-- C9: rendering a mention whose target id resolves to nothing in the
context never fails (the embedded visitor is a total function) and emits
the fixed placeholder: `"@Unknown"` for users (even after the cache
population step the lookup misses), `"#deleted-channel"` for channels,
`"@deleted-role"` for roles; in particular `"<@123>"` rendered in plain
text against the empty context gives `"@Unknown"`. -/
theorem C9_unresolved_mention_placeholders :
    (∀ (ctx : ExportContext) (i : Snowflake),
      (ctx.populate_member_by_id i).try_get_member i = none →
      plainVisitMention ctx (some i) .user =
        (ctx.populate_member_by_id i, "@Unknown")) ∧
    (∀ (ctx : ExportContext) (i : Snowflake),
      ctx.try_get_channel i = none →
      plainVisitMention ctx (some i) .channel = (ctx, "#deleted-channel")) ∧
    (∀ (ctx : ExportContext) (i : Snowflake),
      ctx.try_get_role i = none →
      plainVisitMention ctx (some i) .role = (ctx, "@deleted-role")) ∧
    PlainTextMarkdownVisitor_format emptyContext "<@123>" = "@Unknown" := by
  refine ⟨?_, ?_, ?_, by decide⟩
  · intro ctx i h
    simp only [plainVisitMention, h]
    rfl
  · intro ctx i h
    simp only [plainVisitMention, h]
    rfl
  · intro ctx i h
    simp only [plainVisitMention, h]
    rfl

/-- Witness for C9: the empty context misses member 123 even after
population. -/
theorem C9_witness :
    ((emptyContext.populate_member_by_id ⟨123⟩).try_get_member ⟨123⟩ = none) ∧
    plainVisitMention emptyContext (some ⟨123⟩) .user =
      (emptyContext.populate_member_by_id ⟨123⟩, "@Unknown") :=
  ⟨by decide, C9_unresolved_mention_placeholders.1 emptyContext ⟨123⟩ (by decide)⟩

/-! ## C8: jumbo emoji class -/

theorem data_append (a b : String) : (a ++ b).data = a.data ++ b.data := by
  cases a; cases b; rfl

/-- C8: the hypertext `format` renders with the jumbo flag exactly when
the caller allowed jumbo and every top-level parsed node is an emoji or a
blank text node; the emoji image's class text is `"chatlog__emoji "`
followed by the `"chatlog__emoji--large"` marker exactly when that flag is
set (so with the flag set the marker occurs in the image, and the
scenarios pin both sides: a message that is exactly one custom-emoji
token, rendered with jumbo allowed, carries the marker; the same token
preceded by the non-blank text `"a"`, or rendered with jumbo disallowed,
does not). -/
theorem C8_jumbo_emoji_class :
    (∀ (ctx : ExportContext) (md : String) (allowed : Bool),
      HtmlMarkdownVisitor_format ctx md allowed =
        (htmlVisitMany ctx (allowed && (parse md).all isEmojiOrBlankText)
          (nlist (parse md))).2) ∧
    (∀ (ctx : ExportContext) (j : Bool) (id : Option Snowflake)
       (name : String) (anim : Bool),
      htmlVisitEmoji ctx j id name anim =
        "<img loading=\"lazy\" " ++
        "class=\"chatlog__emoji " ++
        (if j then "chatlog__emoji--large" else "") ++ "\" " ++
        "alt=\"" ++ name ++ "\" " ++
        "title=\"" ++ emojiCode id name ++ "\" " ++
        "src=\"" ++ ctx.resolve_asset_url (emojiImageUrl id name anim) ++
        "\">") ∧
    (∀ (ctx : ExportContext) (id : Option Snowflake) (name : String)
       (anim : Bool),
      "chatlog__emoji--large".data <:+: (htmlVisitEmoji ctx true id name anim).data) ∧
    HtmlMarkdownVisitor_format emptyContext "<:x:123>" true =
      "<img loading=\"lazy\" class=\"chatlog__emoji chatlog__emoji--large\" " ++
      "alt=\"x\" title=\"x\" src=\"https://cdn.discordapp.com/emojis/123.png\">" ∧
    HtmlMarkdownVisitor_format emptyContext "a<:x:123>" true =
      "a<img loading=\"lazy\" class=\"chatlog__emoji \" " ++
      "alt=\"x\" title=\"x\" src=\"https://cdn.discordapp.com/emojis/123.png\">" ∧
    HtmlMarkdownVisitor_format emptyContext "<:x:123>" false =
      "<img loading=\"lazy\" class=\"chatlog__emoji \" " ++
      "alt=\"x\" title=\"x\" src=\"https://cdn.discordapp.com/emojis/123.png\">" := by
  refine ⟨fun _ _ _ => rfl, fun _ _ _ _ _ => rfl, ?_, by decide, by decide,
    by decide⟩
  intro ctx id name anim
  refine ⟨("<img loading=\"lazy\" " ++ "class=\"chatlog__emoji ").data,
    ("\" " ++ "alt=\"" ++ name ++ "\" " ++ "title=\"" ++ emojiCode id name ++
      "\" " ++ "src=\"" ++
      ctx.resolve_asset_url (emojiImageUrl id name anim) ++ "\">").data, ?_⟩
  simp only [htmlVisitEmoji, if_true, data_append, List.append_assoc]

/-! ## C5: engine lemmas — successes never move left, and a success that
consumes anything starts with a character of the pattern's first set -/

/-- Can the pattern match the empty string (conservative for `backref`)? -/
def nullable : Regex → Bool
  | .eps => true
  | .chr _ => false
  | .cls _ => false
  | .dot _ => false
  | .seq a b => nullable a && nullable b
  | .alt a b => nullable a || nullable b
  | .star _ _ => true
  | .grp _ r => nullable r
  | .nla _ => true
  | .nlb _ => true
  | .bol => true
  | .eos => true
  | .backref _ => true

/-- Conservative first set: characters a nonempty match can start with. -/
def firstb : Regex → Char → Bool
  | .eps, _ => false
  | .chr c, x => x = c
  | .cls f, x => f x
  | .dot dotall, x => dotall || !(x = '\n')
  | .seq a b, x => firstb a x || (nullable a && firstb b x)
  | .alt a b, x => firstb a x || firstb b x
  | .star _ r, x => firstb r x
  | .grp _ r, x => firstb r x
  | .nla _, _ => false
  | .nlb _, _ => false
  | .bol, _ => false
  | .eos, _ => false
  | .backref _, _ => true

/-- A member of the star loop either stops immediately or begins with a
strictly advancing body match. -/
theorem starLoop_mem {m : Nat → Caps → List (Nat × Caps)} {lz : Bool}
    {fuel p caps q c} (h : (q, c) ∈ starLoop m lz fuel p caps) :
    (q = p ∧ c = caps) ∨ ∃ q1 c1, (q1, c1) ∈ m p caps ∧ p < q1 := by
  cases fuel with
  | zero =>
    simp only [starLoop, List.mem_singleton] at h
    exact Or.inl ⟨congrArg Prod.fst h, congrArg Prod.snd h⟩
  | succ fuel =>
    have fromMore : (q, c) ∈ (m p caps).flatMap
        (fun pc => forceNat pc.1 (fun q' =>
          if q' ≤ p then [] else starLoop m lz fuel q' pc.2)) →
        (q = p ∧ c = caps) ∨ ∃ q1 c1, (q1, c1) ∈ m p caps ∧ p < q1 := by
      intro h'
      obtain ⟨pc, hpc, h2⟩ := List.mem_flatMap.mp h'
      rw [forceNat_eq] at h2
      by_cases hle : pc.1 ≤ p
      · rw [if_pos hle] at h2; cases h2
      · exact Or.inr ⟨pc.1, pc.2, (by cases pc; exact hpc), Nat.lt_of_not_le hle⟩
    cases lz with
    | true =>
      simp only [starLoop, if_true] at h
      rcases List.mem_cons.mp h with h' | h'
      · cases h'; exact Or.inl ⟨rfl, rfl⟩
      · exact fromMore h'
    | false =>
      simp only [starLoop, Bool.false_eq_true, if_false] at h
      rcases List.mem_append.mp h with h' | h'
      · exact fromMore h'
      · cases List.mem_singleton.mp h'; exact Or.inl ⟨rfl, rfl⟩

theorem starLoop_mono {m : Nat → Caps → List (Nat × Caps)} {lz : Bool} :
    ∀ (fuel p : Nat) (caps : Caps) (q : Nat) (c : Caps),
    (q, c) ∈ starLoop m lz fuel p caps → p ≤ q := by
  intro fuel
  induction fuel with
  | zero =>
    intro p caps q c h
    simp only [starLoop, List.mem_singleton] at h
    exact Nat.le_of_eq (congrArg Prod.fst h).symm
  | succ fuel ih =>
    intro p caps q c h
    have fromMore : (q, c) ∈ (m p caps).flatMap
        (fun pc => forceNat pc.1 (fun q' =>
          if q' ≤ p then [] else starLoop m lz fuel q' pc.2)) → p ≤ q := by
      intro h'
      obtain ⟨pc, hpc, h2⟩ := List.mem_flatMap.mp h'
      rw [forceNat_eq] at h2
      by_cases hle : pc.1 ≤ p
      · rw [if_pos hle] at h2; cases h2
      · rw [if_neg hle] at h2
        exact Nat.le_trans (Nat.le_of_not_le hle) (ih _ _ _ _ h2)
    cases lz with
    | true =>
      simp only [starLoop, if_true] at h
      rcases List.mem_cons.mp h with h' | h'
      · cases h'; exact Nat.le_refl _
      · exact fromMore h'
    | false =>
      simp only [starLoop, Bool.false_eq_true, if_false] at h
      rcases List.mem_append.mp h with h' | h'
      · exact fromMore h'
      · cases List.mem_singleton.mp h'; exact Nat.le_refl _

/-- Engine successes never move the position left. -/
theorem mtch_mono (s : List Char) (endP : Nat) :
    ∀ (r : Regex) (p : Nat) (caps : Caps) (q : Nat) (c : Caps),
    (q, c) ∈ mtch s endP r p caps → p ≤ q := by
  intro r
  induction r with
  | eps =>
    intro p caps q c h
    simp only [mtch, List.mem_singleton] at h
    exact Nat.le_of_eq (congrArg Prod.fst h).symm
  | chr ch =>
    intro p caps q c h
    simp only [mtch] at h
    split at h
    · cases List.mem_singleton.mp h; exact Nat.le_succ p
    · cases h
  | cls f =>
    intro p caps q c h
    simp only [mtch] at h
    split at h
    · cases List.mem_singleton.mp h; exact Nat.le_succ p
    · cases h
  | dot da =>
    intro p caps q c h
    simp only [mtch] at h
    split at h
    · cases List.mem_singleton.mp h; exact Nat.le_succ p
    · cases h
  | seq a b iha ihb =>
    intro p caps q c h
    simp only [mtch] at h
    obtain ⟨pc, hpc, h2⟩ := List.mem_flatMap.mp h
    rw [forceNat_eq] at h2
    exact Nat.le_trans (iha p caps pc.1 pc.2 (by cases pc; exact hpc))
      (ihb pc.1 pc.2 q c h2)
  | alt a b iha ihb =>
    intro p caps q c h
    simp only [mtch] at h
    rcases List.mem_append.mp h with h' | h'
    · exact iha p caps q c h'
    · exact ihb p caps q c h'
  | star lz r ihr =>
    intro p caps q c h
    simp only [mtch] at h
    exact starLoop_mono _ _ _ _ _ h
  | grp i r ihr =>
    intro p caps q c h
    simp only [mtch, List.mem_map] at h
    obtain ⟨pc, hpc, h2⟩ := h
    rw [forceNat_eq] at h2
    cases h2
    exact ihr p caps pc.1 pc.2 (by cases pc; exact hpc)
  | nla r _ =>
    intro p caps q c h
    simp only [mtch] at h
    split at h
    · cases List.mem_singleton.mp h; exact Nat.le_refl _
    · cases h
  | nlb f =>
    intro p caps q c h
    simp only [mtch] at h
    split at h
    · cases h
    · cases List.mem_singleton.mp h; exact Nat.le_refl _
  | bol =>
    intro p caps q c h
    simp only [mtch] at h
    split at h
    · cases List.mem_singleton.mp h; exact Nat.le_refl _
    · cases h
  | eos =>
    intro p caps q c h
    simp only [mtch] at h
    split at h
    · cases List.mem_singleton.mp h; exact Nat.le_refl _
    · cases h
  | backref i =>
    intro p caps q c h
    simp only [mtch] at h
    rcases hcap : capGet caps i with _ | ab
    · rw [hcap] at h; cases h
    · rw [hcap] at h
      obtain ⟨a, b⟩ := ab
      simp only [forceNat_eq] at h
      split at h
      · cases List.mem_singleton.mp h; exact Nat.le_add_right _ _
      · cases h

/-- A success that consumes nothing comes from a nullable pattern. -/
theorem mtch_nullable (s : List Char) (endP : Nat) :
    ∀ (r : Regex) (p : Nat) (caps : Caps) (c : Caps),
    (p, c) ∈ mtch s endP r p caps → nullable r = true := by
  intro r
  induction r with
  | eps => intro p caps c _; rfl
  | chr ch =>
    intro p caps c h
    simp only [mtch] at h
    split at h
    · exact absurd (congrArg Prod.fst (List.mem_singleton.mp h))
        (by simp)
    · cases h
  | cls f =>
    intro p caps c h
    simp only [mtch] at h
    split at h
    · exact absurd (congrArg Prod.fst (List.mem_singleton.mp h))
        (by simp)
    · cases h
  | dot da =>
    intro p caps c h
    simp only [mtch] at h
    split at h
    · exact absurd (congrArg Prod.fst (List.mem_singleton.mp h))
        (by simp)
    · cases h
  | seq a b iha ihb =>
    intro p caps c h
    simp only [mtch] at h
    obtain ⟨pc, hpc, h2⟩ := List.mem_flatMap.mp h
    rw [forceNat_eq] at h2
    have h1le : p ≤ pc.1 := mtch_mono s endP a p caps pc.1 pc.2 (by cases pc; exact hpc)
    have h2le : pc.1 ≤ p := mtch_mono s endP b pc.1 pc.2 p c h2
    have heq : pc.1 = p := Nat.le_antisymm h2le h1le
    have hpc' : (pc.1, pc.2) ∈ mtch s endP a p caps := by cases pc; exact hpc
    rw [heq] at hpc' h2
    simp only [nullable, Bool.and_eq_true]
    exact ⟨iha p caps pc.2 hpc', ihb p pc.2 c h2⟩
  | alt a b iha ihb =>
    intro p caps c h
    simp only [mtch] at h
    simp only [nullable, Bool.or_eq_true]
    rcases List.mem_append.mp h with h' | h'
    · exact Or.inl (iha p caps c h')
    · exact Or.inr (ihb p caps c h')
  | star lz r _ => intro p caps c _; rfl
  | grp i r ihr =>
    intro p caps c h
    simp only [mtch, List.mem_map] at h
    obtain ⟨pc, hpc, h2⟩ := h
    rw [forceNat_eq] at h2
    have heq : pc.1 = p := congrArg Prod.fst h2
    have hpc' : (pc.1, pc.2) ∈ mtch s endP r p caps := by cases pc; exact hpc
    rw [heq] at hpc'
    exact ihr p caps pc.2 hpc'
  | nla r _ => intro p caps c _; rfl
  | nlb f => intro p caps c _; rfl
  | bol => intro p caps c _; rfl
  | eos => intro p caps c _; rfl
  | backref i => intro p caps c _; rfl

/-- A success that consumes at least one character starts inside the
bounds with a character of the pattern's first set. -/
theorem mtch_first (s : List Char) (endP : Nat) :
    ∀ (r : Regex) (p : Nat) (caps : Caps) (q : Nat) (c : Caps),
    (q, c) ∈ mtch s endP r p caps →
    q = p ∨ (p < endP ∧ firstb r (getC s p) = true) := by
  intro r
  induction r with
  | eps =>
    intro p caps q c h
    exact Or.inl (congrArg Prod.fst (List.mem_singleton.mp h))
  | chr ch =>
    intro p caps q c h
    simp only [mtch] at h
    split at h
    case isTrue hcond =>
      simp only [Bool.and_eq_true, decide_eq_true_eq] at hcond
      exact Or.inr ⟨hcond.1, by simp [firstb, hcond.2]⟩
    case isFalse => cases h
  | cls f =>
    intro p caps q c h
    simp only [mtch] at h
    split at h
    case isTrue hcond =>
      simp only [Bool.and_eq_true, decide_eq_true_eq] at hcond
      exact Or.inr ⟨hcond.1, hcond.2⟩
    case isFalse => cases h
  | dot da =>
    intro p caps q c h
    simp only [mtch] at h
    split at h
    case isTrue hcond =>
      simp only [Bool.and_eq_true, decide_eq_true_eq] at hcond
      exact Or.inr ⟨hcond.1, hcond.2⟩
    case isFalse => cases h
  | seq a b iha ihb =>
    intro p caps q c h
    simp only [mtch] at h
    obtain ⟨pc, hpc, h2⟩ := List.mem_flatMap.mp h
    rw [forceNat_eq] at h2
    have hpc' : (pc.1, pc.2) ∈ mtch s endP a p caps := by cases pc; exact hpc
    by_cases h1 : pc.1 = p
    · rw [h1] at h2
      have hna : nullable a = true := mtch_nullable s endP a p caps pc.2
        (by rw [h1] at hpc'; exact hpc')
      rcases ihb p pc.2 q c h2 with hq | ⟨hlt, hf⟩
      · exact Or.inl hq
      · exact Or.inr ⟨hlt, by simp [firstb, hna, hf]⟩
    · rcases iha p caps pc.1 pc.2 hpc' with hq | ⟨hlt, hf⟩
      · exact absurd hq h1
      · exact Or.inr ⟨hlt, by simp [firstb, hf]⟩
  | alt a b iha ihb =>
    intro p caps q c h
    simp only [mtch] at h
    rcases List.mem_append.mp h with h' | h'
    · rcases iha p caps q c h' with hq | ⟨hlt, hf⟩
      · exact Or.inl hq
      · exact Or.inr ⟨hlt, by simp [firstb, hf]⟩
    · rcases ihb p caps q c h' with hq | ⟨hlt, hf⟩
      · exact Or.inl hq
      · exact Or.inr ⟨hlt, by simp [firstb, hf]⟩
  | star lz r ihr =>
    intro p caps q c h
    simp only [mtch] at h
    rcases starLoop_mem h with ⟨hq, _⟩ | ⟨q1, c1, hm, hlt⟩
    · exact Or.inl hq
    · rcases ihr p caps q1 c1 hm with hq | ⟨hlt', hf⟩
      · omega
      · exact Or.inr ⟨hlt', hf⟩
  | grp i r ihr =>
    intro p caps q c h
    simp only [mtch, List.mem_map] at h
    obtain ⟨pc, hpc, h2⟩ := h
    rw [forceNat_eq] at h2
    have : pc.1 = q := congrArg Prod.fst h2
    rcases ihr p caps pc.1 pc.2 (by cases pc; exact hpc) with hq | ⟨hlt, hf⟩
    · exact Or.inl (this ▸ hq)
    · exact Or.inr ⟨hlt, hf⟩
  | nla r _ =>
    intro p caps q c h
    simp only [mtch] at h
    split at h
    · exact Or.inl (congrArg Prod.fst (List.mem_singleton.mp h))
    · cases h
  | nlb f =>
    intro p caps q c h
    simp only [mtch] at h
    split at h
    · cases h
    · exact Or.inl (congrArg Prod.fst (List.mem_singleton.mp h))
  | bol =>
    intro p caps q c h
    simp only [mtch] at h
    split at h
    · exact Or.inl (congrArg Prod.fst (List.mem_singleton.mp h))
    · cases h
  | eos =>
    intro p caps q c h
    simp only [mtch] at h
    split at h
    · exact Or.inl (congrArg Prod.fst (List.mem_singleton.mp h))
    · cases h
  | backref i =>
    intro p caps q c h
    simp only [mtch] at h
    rcases hcap : capGet caps i with _ | ab
    · rw [hcap] at h; cases h
    · rw [hcap] at h
      obtain ⟨a, b⟩ := ab
      simp only [forceNat_eq] at h
      split at h
      case isTrue hcond =>
        cases List.mem_singleton.mp h
        by_cases hz : b - a = 0
        · exact Or.inl (by omega)
        · simp only [Bool.and_eq_true, decide_eq_true_eq] at hcond
          exact Or.inr ⟨by omega, rfl⟩
      case isFalse => cases h

/-- A pattern that is not nullable and whose first set misses the current
character has no success at all. -/
theorem mtch_fail_first {s : List Char} {endP : Nat} {r : Regex} {p : Nat}
    (caps : Caps) (hn : nullable r = false)
    (hf : firstb r (getC s p) = false) : mtch s endP r p caps = [] := by
  rcases hres : mtch s endP r p caps with _ | ⟨⟨q, c⟩, rest⟩
  · rfl
  · exfalso
    have hmem : (q, c) ∈ mtch s endP r p caps := by rw [hres]; exact List.mem_cons_self _ _
    rcases mtch_first s endP r p caps q c hmem with hq | ⟨_, hf'⟩
    · rw [hq] at hmem
      rw [mtch_nullable s endP r p caps c hmem] at hn
      cases hn
    · rw [hf'] at hf
      cases hf

theorem searchAux_ge (s : List Char) (endP : Nat) (r : Regex) :
    ∀ (count p : Nat) (hit : SearchHit),
    searchAux s endP r count p = some hit → p ≤ hit.mstart := by
  intro count
  induction count with
  | zero => intro p hit h; cases h
  | succ count ih =>
    intro p hit h
    simp only [searchAux] at h
    rcases hm : mtch s endP r p [] with _ | ⟨pc, rest⟩
    · rw [hm] at h
      exact Nat.le_trans (Nat.le_succ p) (ih (p + 1) hit h)
    · rw [hm] at h
      simp only [forceNat_eq] at h
      cases h
      exact Nat.le_refl _

/-- If the pattern fails at `pos` itself, any search hit starts strictly
to the right of `pos`. -/
theorem rsearch_after_fail {s : List Char} {r : Regex} {pos endP : Nat}
    {hit : SearchHit} (h0 : mtch s endP r pos [] = [])
    (h : rsearch s r pos endP = some hit) : pos < hit.mstart := by
  unfold rsearch at h
  rcases hc : endP + 1 - pos with _ | count
  · rw [hc] at h; cases h
  · rw [hc] at h
    simp only [searchAux, h0] at h
    exact searchAux_ge s endP r count (pos + 1) hit h

/-! The preferred (first) success of a match, computed compositionally. -/

theorem head_flatMap {α β : Type} {l : List α} {f : α → List β} {x : α}
    {y : β} (hl : l.head? = some x) (hf : (f x).head? = some y) :
    (l.flatMap f).head? = some y := by
  cases l with
  | nil => cases hl
  | cons a l' =>
    have hax : a = x := by cases hl; rfl
    subst hax
    rcases hfx : f a with _ | ⟨b, fb⟩
    · rw [hfx] at hf; cases hf
    · rw [hfx] at hf
      cases hf
      simp [hfx]

theorem head_append {α : Type} {l l' : List α} {x : α}
    (h : l.head? = some x) : (l ++ l').head? = some x := by
  cases l with
  | nil => cases h
  | cons a t => cases h; rfl

theorem getD_drop (s : List Char) (p k : Nat) (d : Char) :
    (s.drop p).getD k d = s.getD (p + k) d := by
  simp [List.getD_eq_getElem?_getD, List.getElem?_drop]

theorem getC_drop (s : List Char) (p k : Nat) :
    getC s (p + k) = getC (s.drop p) k :=
  (getD_drop s p k (Char.ofNat 0)).symm

theorem mtch_chr_eval {s : List Char} {endP : Nat} {ch : Char} {p : Nat}
    (caps : Caps) (hp : p < endP) (hc : getC s p = ch) :
    mtch s endP (.chr ch) p caps = [(p + 1, caps)] := by
  simp [mtch, hp, hc]

theorem mtch_cls_eval {s : List Char} {endP : Nat} {f : Char → Bool} {p : Nat}
    (caps : Caps) (hp : p < endP) (hc : f (getC s p) = true) :
    mtch s endP (.cls f) p caps = [(p + 1, caps)] := by
  simp [mtch, hp, hc]

theorem mtch_dot_eval {s : List Char} {endP : Nat} {p : Nat}
    (caps : Caps) (hp : p < endP) (hc : ¬(getC s p = '\n')) :
    mtch s endP (.dot false) p caps = [(p + 1, caps)] := by
  simp [mtch, hp, hc]

theorem mtch_dot_fail_nl {s : List Char} {endP : Nat} {p : Nat}
    (caps : Caps) (hc : getC s p = '\n') :
    mtch s endP (.dot false) p caps = [] := by
  simp [mtch, hc]

theorem mtch_bol_eval {s : List Char} {endP : Nat} {p : Nat}
    (caps : Caps) (hb : p = 0 ∨ getC s (p - 1) = '\n') :
    mtch s endP .bol p caps = [(p, caps)] := by
  rcases hb with hb | hb <;> simp [mtch, hb]

theorem mtch_seq_head {s : List Char} {endP : Nat} {a b : Regex}
    {p : Nat} {caps : Caps} {q1 : Nat} {c1 : Caps} {q : Nat} {c : Caps}
    (ha : (mtch s endP a p caps).head? = some (q1, c1))
    (hb : (mtch s endP b q1 c1).head? = some (q, c)) :
    (mtch s endP (.seq a b) p caps).head? = some (q, c) := by
  simp only [mtch]
  refine head_flatMap ha ?_
  simpa [forceNat_eq] using hb

theorem mtch_grp_head {s : List Char} {endP : Nat} {i : Nat} {r : Regex}
    {p : Nat} {caps : Caps} {q : Nat} {c : Caps}
    (h : (mtch s endP r p caps).head? = some (q, c)) :
    (mtch s endP (.grp i r) p caps).head? = some (q, (i, p, q) :: c) := by
  simp only [mtch, List.head?_map, h, forceNat_eq]
  rfl

theorem mtch_alt_head_left {s : List Char} {endP : Nat} {a b : Regex}
    {p : Nat} {caps : Caps} {x : Nat × Caps}
    (h : (mtch s endP a p caps).head? = some x) :
    (mtch s endP (.alt a b) p caps).head? = some x := by
  simp only [mtch]
  exact head_append h

theorem mtch_alt_head_right {s : List Char} {endP : Nat} {a b : Regex}
    {p : Nat} {caps : Caps}
    (h : mtch s endP a p caps = []) :
    (mtch s endP (.alt a b) p caps).head? = (mtch s endP b p caps).head? := by
  simp only [mtch, h, List.nil_append]

theorem starLoop_stop {m : Nat → Caps → List (Nat × Caps)} {lz : Bool}
    {fuel p : Nat} {caps : Caps} (hm : m p caps = []) :
    starLoop m lz fuel p caps = [(p, caps)] := by
  cases fuel <;> cases lz <;> simp [starLoop, hm]

theorem starLoop_head_step {m : Nat → Caps → List (Nat × Caps)}
    {fuel p : Nat} {caps : Caps} {q1 : Nat} {c1 : Caps} {x : Nat × Caps}
    (h1 : (m p caps).head? = some (q1, c1)) (hlt : p < q1)
    (h2 : (starLoop m false fuel q1 c1).head? = some x) :
    (starLoop m false (fuel + 1) p caps).head? = some x := by
  simp only [starLoop, Bool.false_eq_true, if_false]
  refine head_append (head_flatMap h1 ?_)
  simpa [forceNat_eq, if_neg (Nat.not_le_of_lt hlt)] using h2

/-- First success of greedy `.*` (non-DOTALL) before a newline: consume
the whole newline-free block. -/
theorem starDot_head (s : List Char) (endP : Nat) :
    ∀ (l rest : List Char) (p : Nat) (caps : Caps) (fuel : Nat),
    s.drop p = l ++ '\n' :: rest → '\n' ∉ l → p + l.length < endP →
    l.length ≤ fuel →
    (starLoop (fun q c' => mtch s endP (.dot false) q c') false fuel p
      caps).head? = some (p + l.length, caps) := by
  intro l
  induction l with
  | nil =>
    intro rest p caps fuel hdrop _ _ _
    have hc : getC s p = '\n' := by
      have := getC_drop s p 0
      rw [Nat.add_zero] at this
      rw [this, hdrop]
      rfl
    rw [starLoop_stop (mtch_dot_fail_nl caps hc)]
    rfl
  | cons ch l' ih =>
    intro rest p caps fuel hdrop hnl hend hfuel
    have hc : getC s p = ch := by
      have := getC_drop s p 0
      rw [Nat.add_zero] at this
      rw [this, hdrop]
      rfl
    have hchnl : ¬(ch = '\n') := by
      intro h
      exact hnl (h ▸ List.mem_cons_self ch l')
    have hp : p < endP := by
      have : l'.length + 1 = (ch :: l').length := rfl
      omega
    have hdrop' : s.drop (p + 1) = l' ++ '\n' :: rest := by
      have : s.drop (p + 1) = (s.drop p).drop 1 := by
        rw [List.drop_drop, Nat.add_comm]
      rw [this, hdrop]
      rfl
    rcases fuel with _ | fuel'
    · simp at hfuel
    · have hstep := starLoop_head_step (x := (p + 1 + l'.length, caps))
        (by rw [mtch_dot_eval caps hp (hc ▸ hchnl)]; rfl)
        (Nat.lt_succ_self p)
        (ih rest (p + 1) caps fuel' hdrop'
          (fun h => hnl (List.mem_cons_of_mem ch h))
          (by simpa [List.length_cons, Nat.add_comm, Nat.add_left_comm,
            Nat.add_assoc] using hend)
          (by simpa using hfuel))
      rw [hstep]
      congr 2
      simp [List.length_cons]
      omega

theorem getD_append_length (l : List Char) (c : Char) (r : List Char)
    (d : Char) : (l ++ c :: r).getD l.length d = c := by
  induction l with
  | nil => rfl
  | cons a t ih => simpa using ih

/-- Past the right end, a non-nullable pattern has no success. -/
theorem mtch_fail_ge {s : List Char} {endP : Nat} {r : Regex} {p : Nat}
    (caps : Caps) (hn : nullable r = false) (hp : endP ≤ p) :
    mtch s endP r p caps = [] := by
  rcases hres : mtch s endP r p caps with _ | ⟨⟨q, c⟩, rest⟩
  · rfl
  · exfalso
    have hmem : (q, c) ∈ mtch s endP r p caps := by
      rw [hres]; exact List.mem_cons_self _ _
    rcases mtch_first s endP r p caps q c hmem with hq | ⟨hlt, _⟩
    · rw [hq] at hmem
      rw [mtch_nullable s endP r p caps c hmem] at hn
      cases hn
    · omega

/-- Preferred match of one quoted line `^>\s(.*\n?)` at a line start:
consume through the line's newline, capturing from after the marker. -/
theorem quoteLine_head {s : List Char} {endP : Nat} {l rest : List Char}
    {p : Nat} (caps : Caps)
    (hdrop : s.drop p = '>' :: ' ' :: (l ++ '\n' :: rest))
    (hnl : '\n' ∉ l)
    (hbol : p = 0 ∨ getC s (p - 1) = '\n')
    (hend : p + l.length + 2 < endP) :
    (mtch s endP quoteLinePat p caps).head? =
      some (p + 2 + l.length + 1, (1, p + 2, p + 2 + l.length + 1) :: caps) := by
  have hc0 : getC s p = '>' := by
    have h := getC_drop s p 0
    rw [Nat.add_zero, hdrop] at h
    exact h
  have hc1 : getC s (p + 1) = ' ' := by
    have h := getC_drop s p 1
    rw [hdrop] at h
    exact h
  have hdrop2 : s.drop (p + 2) = l ++ '\n' :: rest := by
    have h : s.drop (p + 2) = (s.drop p).drop 2 := by
      rw [List.drop_drop, Nat.add_comm]
    rw [h, hdrop]
    simp
  have hcNl : getC s (p + 2 + l.length) = '\n' := by
    have h := getC_drop s (p + 2) l.length
    rw [hdrop2] at h
    rw [h]
    exact getD_append_length l '\n' rest (Char.ofNat 0)
  have hform : quoteLinePat =
      .seq .bol (.seq (.chr '>') (.seq (.cls isSpacePy)
        (.grp 1 (.seq (.star false (.dot false))
          (ropt false (.chr '\n')))))) := rfl
  rw [hform]
  have h_bol : (mtch s endP .bol p caps).head? = some (p, caps) := by
    rw [mtch_bol_eval caps hbol]
    rfl
  have h_gt : (mtch s endP (.chr '>') p caps).head? = some (p + 1, caps) := by
    rw [mtch_chr_eval caps (by omega) hc0]
    rfl
  have h_sp : (mtch s endP (.cls isSpacePy) (p + 1) caps).head? =
      some (p + 1 + 1, caps) := by
    rw [mtch_cls_eval caps (by omega) (by rw [hc1]; decide)]
    rfl
  have h_star : (mtch s endP (.star false (.dot false)) (p + 2)
      caps).head? = some (p + 2 + l.length, caps) := by
    simp only [mtch]
    exact starDot_head s endP l rest (p + 2) caps (endP + 1 - (p + 2))
      hdrop2 hnl (by omega) (by omega)
  have h_opt : (mtch s endP (ropt false (.chr '\n')) (p + 2 + l.length)
      caps).head? = some (p + 2 + l.length + 1, caps) := by
    have hr : ropt false (.chr '\n') = .alt (.chr '\n') .eps := rfl
    rw [hr]
    refine mtch_alt_head_left ?_
    rw [mtch_chr_eval caps (by omega) hcNl]
    rfl
  have h_inner := mtch_seq_head h_star h_opt
  have h_grp := mtch_grp_head (i := 1) h_inner
  have h21 : p + 1 + 1 = p + 2 := by omega
  rw [h21] at h_sp
  exact mtch_seq_head h_bol (mtch_seq_head h_gt (mtch_seq_head h_sp h_grp))

/-! ## C5: the repeated single-line quote

`quoteRun ls` is the text made of one quoted line per element of `ls`
(marker `"> "`, then the line's characters, then a newline);
`quoteSegsAux` lists the capture-group segments (line content plus its
newline) that the repeated-quote matcher's line re-scan yields, and
`quoteHitsAux` the corresponding raw hits of `quoteLinePat`. -/

def quoteRun : List (List Char) → List Char
  | [] => []
  | l :: ls => '>' :: ' ' :: (l ++ '\n' :: quoteRun ls)

def quoteSegsAux (src : List Char) : Nat → List (List Char) → List Segment
  | _, [] => []
  | p, l :: ls =>
    ⟨src, p + 2, l.length + 1⟩ :: quoteSegsAux src (p + 2 + l.length + 1) ls

def quoteHitsAux : Nat → List (List Char) → List SearchHit
  | _, [] => []
  | p, l :: ls =>
    ⟨p, p + 2 + l.length + 1, [(1, p + 2, p + 2 + l.length + 1)]⟩ ::
      quoteHitsAux (p + 2 + l.length + 1) ls

theorem quoteRun_length_cons (l : List Char) (ls : List (List Char)) :
    (quoteRun (l :: ls)).length = l.length + 3 + (quoteRun ls).length := by
  simp only [quoteRun, List.length_cons, List.length_append]
  omega

theorem length_le_quoteRun (ls : List (List Char)) :
    ls.length ≤ (quoteRun ls).length := by
  induction ls with
  | nil => exact Nat.le_refl 0
  | cons l t ih =>
    rw [quoteRun_length_cons]
    simp only [List.length_cons]
    omega

theorem drop_append_cons (l : List Char) (c : Char) (r : List Char) :
    (l ++ c :: r).drop (l.length + 1) = r := by
  induction l with
  | nil => simp
  | cons a t ih => simp [ih]

/-- Preferred stop of the trailing `(?:^>\s(.*\n?))*` over the remaining
quoted lines: consume all of them, to the very end of the run. -/
theorem starQuoteLines_head (s : List Char) (endP : Nat) :
    ∀ (ls : List (List Char)) (p : Nat) (caps : Caps) (fuel : Nat),
    s.drop p = quoteRun ls → (∀ l ∈ ls, '\n' ∉ l) →
    (p = 0 ∨ getC s (p - 1) = '\n') →
    p + (quoteRun ls).length = endP →
    ls.length ≤ fuel →
    ∃ c, (starLoop (fun q c' => mtch s endP quoteLinePat q c') false fuel p
      caps).head? = some (endP, c) := by
  intro ls
  induction ls with
  | nil =>
    intro p caps fuel hdrop _ _ hlen _
    have hp : p = endP := by simpa [quoteRun] using hlen
    refine ⟨caps, ?_⟩
    rw [starLoop_stop (mtch_fail_ge caps (by decide) (Nat.le_of_eq hp.symm)),
      hp]
    rfl
  | cons l t ih =>
    intro p caps fuel hdrop hnl hbol hlen hfuel
    have hdropc : s.drop p = '>' :: ' ' :: (l ++ '\n' :: quoteRun t) := by
      simpa [quoteRun] using hdrop
    have hlenc : p + (l.length + 3 + (quoteRun t).length) = endP := by
      rw [← quoteRun_length_cons]
      exact hlen
    have hend : p + l.length + 2 < endP := by omega
    have hhead := quoteLine_head caps hdropc
      (hnl l (List.mem_cons_self l t)) hbol hend
    have hdrop2 : s.drop (p + 2) = l ++ '\n' :: quoteRun t := by
      have h : s.drop (p + 2) = (s.drop p).drop 2 := by
        rw [List.drop_drop, Nat.add_comm]
      rw [h, hdropc]
      simp
    have hcNl : getC s (p + 2 + l.length) = '\n' := by
      have h := getC_drop s (p + 2) l.length
      rw [hdrop2] at h
      rw [h]
      exact getD_append_length l '\n' (quoteRun t) (Char.ofNat 0)
    have hdropNext : s.drop (p + 2 + l.length + 1) = quoteRun t := by
      have h1 : p + 2 + l.length + 1 = p + 2 + (l.length + 1) := by omega
      rw [h1, ← List.drop_drop, hdrop2, drop_append_cons]
    rcases fuel with _ | f
    · simp only [List.length_cons] at hfuel
      omega
    · obtain ⟨c, hc⟩ := ih (p + 2 + l.length + 1)
        ((1, p + 2, p + 2 + l.length + 1) :: caps) f hdropNext
        (fun l' hl' => hnl l' (List.mem_cons_of_mem l hl'))
        (Or.inr (by
          have h : p + 2 + l.length + 1 - 1 = p + 2 + l.length := by omega
          rw [h]
          exact hcNl))
        (by omega)
        (by simp only [List.length_cons] at hfuel; omega)
      exact ⟨c, starLoop_head_step hhead (by omega) hc⟩

theorem quote_drop2 {s : List Char} {p : Nat} {l r : List Char}
    (h : s.drop p = '>' :: ' ' :: (l ++ '\n' :: r)) :
    s.drop (p + 2) = l ++ '\n' :: r := by
  have h2 : s.drop (p + 2) = (s.drop p).drop 2 := by
    rw [List.drop_drop, Nat.add_comm]
  rw [h2, h]
  simp

theorem quote_nlAt {s : List Char} {p : Nat} {l r : List Char}
    (h : s.drop p = '>' :: ' ' :: (l ++ '\n' :: r)) :
    getC s (p + 2 + l.length) = '\n' := by
  have h2 := getC_drop s (p + 2) l.length
  rw [quote_drop2 h] at h2
  rw [h2]
  exact getD_append_length l '\n' r (Char.ofNat 0)

theorem quote_dropNext {s : List Char} {p : Nat} {l r : List Char}
    (h : s.drop p = '>' :: ' ' :: (l ++ '\n' :: r)) :
    s.drop (p + 2 + l.length + 1) = r := by
  have h1 : p + 2 + l.length + 1 = p + 2 + (l.length + 1) := by omega
  rw [h1, ← List.drop_drop, quote_drop2 h, drop_append_cons]

/-- When the pattern's preferred match at `pos` itself is known, the
search result is that match. -/
theorem rsearch_of_head {s : List Char} {r : Regex} {p endP : Nat}
    {q : Nat} {c : Caps} (hp : p ≤ endP)
    (h : (mtch s endP r p []).head? = some (q, c)) :
    rsearch s r p endP = some ⟨p, q, c⟩ := by
  unfold rsearch
  have hc2 : endP + 1 - p = (endP - p) + 1 := by omega
  rw [hc2]
  simp only [searchAux]
  rcases hm : mtch s endP r p [] with _ | ⟨⟨q0, c0⟩, rest⟩
  · rw [hm] at h
    cases h
  · rw [hm] at h
    rw [List.head?_cons, Option.some_inj] at h
    have hq : q0 = q := congrArg Prod.fst h
    have hcc : c0 = c := congrArg Prod.snd h
    subst hq
    subst hcc
    simp [forceNat_eq]

/-- Preferred match of `(?:^>\s(.*\n?)){2,}` at the start of a whole-text
quote run: the entire run. -/
theorem repeatedQuote_head (s : List Char) (endP : Nat)
    (l1 l2 : List Char) (t : List (List Char))
    (hs : s = quoteRun (l1 :: l2 :: t))
    (hnl : ∀ l ∈ l1 :: l2 :: t, '\n' ∉ l)
    (hendP : endP = s.length) :
    ∃ c, (mtch s endP repeatedQuotePat 0 []).head? = some (endP, c) := by
  have hdropc1 : s.drop 0 = '>' :: ' ' :: (l1 ++ '\n' :: quoteRun (l2 :: t)) := by
    simp [hs, quoteRun]
  have hlen : (quoteRun (l1 :: l2 :: t)).length = endP := by
    rw [hendP, hs]
  have hlen1 : (quoteRun (l1 :: l2 :: t)).length =
      l1.length + 3 + (quoteRun (l2 :: t)).length := quoteRun_length_cons _ _
  have hlen2 : (quoteRun (l2 :: t)).length =
      l2.length + 3 + (quoteRun t).length := quoteRun_length_cons _ _
  have hend1 : 0 + l1.length + 2 < endP := by omega
  have h1 := quoteLine_head [] hdropc1
    (hnl l1 (List.mem_cons_self _ _)) (Or.inl rfl) hend1
  have hdropc2 : s.drop (0 + 2 + l1.length + 1) =
      '>' :: ' ' :: (l2 ++ '\n' :: quoteRun t) := by
    rw [quote_dropNext hdropc1]
    simp [quoteRun]
  have hbol2 : (0 + 2 + l1.length + 1 = 0) ∨
      getC s (0 + 2 + l1.length + 1 - 1) = '\n' := by
    right
    have he : 0 + 2 + l1.length + 1 - 1 = 0 + 2 + l1.length := by omega
    rw [he]
    exact quote_nlAt hdropc1
  have hlenTot : 0 + (quoteRun (l1 :: l2 :: t)).length = endP := by omega
  have hend2 : 0 + 2 + l1.length + 1 + l2.length + 2 < endP := by omega
  have h2 := quoteLine_head
    [(1, 0 + 2, 0 + 2 + l1.length + 1)] hdropc2
    (hnl l2 (List.mem_cons_of_mem _ (List.mem_cons_self _ _))) hbol2 hend2
  have hdropc3 : s.drop (0 + 2 + l1.length + 1 + 2 + l2.length + 1) =
      quoteRun t := quote_dropNext hdropc2
  have hbol3 : (0 + 2 + l1.length + 1 + 2 + l2.length + 1 = 0) ∨
      getC s (0 + 2 + l1.length + 1 + 2 + l2.length + 1 - 1) = '\n' := by
    right
    have he : 0 + 2 + l1.length + 1 + 2 + l2.length + 1 - 1 =
        0 + 2 + l1.length + 1 + 2 + l2.length := by omega
    rw [he]
    exact quote_nlAt hdropc2
  obtain ⟨c, hc⟩ := starQuoteLines_head s endP t
    (0 + 2 + l1.length + 1 + 2 + l2.length + 1)
    ((1, 0 + 2 + l1.length + 1 + 2,
        0 + 2 + l1.length + 1 + 2 + l2.length + 1) ::
      [(1, 0 + 2, 0 + 2 + l1.length + 1)])
    (endP + 1 - (0 + 2 + l1.length + 1 + 2 + l2.length + 1))
    hdropc3
    (fun l' hl' => hnl l'
      (List.mem_cons_of_mem _ (List.mem_cons_of_mem _ hl')))
    hbol3
    (by
      have := length_le_quoteRun t
      omega)
    (by
      have := length_le_quoteRun t
      omega)
  have h3 : (mtch s endP (.star false quoteLinePat)
      (0 + 2 + l1.length + 1 + 2 + l2.length + 1)
      ((1, 0 + 2 + l1.length + 1 + 2,
          0 + 2 + l1.length + 1 + 2 + l2.length + 1) ::
        [(1, 0 + 2, 0 + 2 + l1.length + 1)])).head? = some (endP, c) := by
    simp only [mtch]
    exact hc
  have hform : repeatedQuotePat =
      .seq quoteLinePat (.seq quoteLinePat (.star false quoteLinePat)) := rfl
  exact ⟨c, by rw [hform]; exact mtch_seq_head h1 (mtch_seq_head h2 h3)⟩

/-- `finditer` of the line pattern over a whole-text quote run enumerates
exactly the lines. -/
theorem finditer_quoteLines (s : List Char) (endP : Nat) :
    ∀ (ls : List (List Char)) (p : Nat) (fuel : Nat),
    s.drop p = quoteRun ls → (∀ l ∈ ls, '\n' ∉ l) →
    (p = 0 ∨ getC s (p - 1) = '\n') →
    p + (quoteRun ls).length = endP →
    ls.length + 1 ≤ fuel →
    finditerAux s endP quoteLinePat fuel p = quoteHitsAux p ls := by
  intro ls
  induction ls with
  | nil =>
    intro p fuel hdrop _ _ hlen hfuel
    have hp : p = endP := by simpa [quoteRun] using hlen
    rcases fuel with _ | f
    · simp only [List.length_nil] at hfuel
      omega
    · simp only [finditerAux]
      have hnone : rsearch s quoteLinePat p endP = none := by
        unfold rsearch
        have h1 : endP + 1 - p = 0 + 1 := by omega
        rw [h1]
        simp only [searchAux,
          mtch_fail_ge ([] : Caps) (by decide : nullable quoteLinePat = false)
            (Nat.le_of_eq hp.symm)]
      rw [hnone]
      rfl
  | cons l t ih =>
    intro p fuel hdrop hnl hbol hlen hfuel
    have hdropc : s.drop p = '>' :: ' ' :: (l ++ '\n' :: quoteRun t) := by
      simpa [quoteRun] using hdrop
    have hlenc : p + (l.length + 3 + (quoteRun t).length) = endP := by
      rw [← quoteRun_length_cons]
      exact hlen
    have hend : p + l.length + 2 < endP := by omega
    have hh := quoteLine_head [] hdropc
      (hnl l (List.mem_cons_self _ _)) hbol hend
    have hsearch := rsearch_of_head (by omega) hh
    rcases fuel with _ | f
    · simp only [List.length_cons] at hfuel
      omega
    · have hnext := ih (p + 2 + l.length + 1) f (quote_dropNext hdropc)
        (fun l' hl' => hnl l' (List.mem_cons_of_mem l hl'))
        (Or.inr (by
          have he : p + 2 + l.length + 1 - 1 = p + 2 + l.length := by omega
          rw [he]
          exact quote_nlAt hdropc))
        (by omega)
        (by simp only [List.length_cons] at hfuel; omega)
      have hlt : p < p + 2 + l.length + 1 := by omega
      simp only [finditerAux, hsearch, quoteHitsAux, hlt, if_pos, hnext]

/-- The transform's per-line child segments. -/
theorem quoteHits_flatMap (segM : Segment)
    (pn : Segment → List MarkdownNode) :
    ∀ (ls : List (List Char)) (p : Nat),
    (quoteHitsAux p ls).flatMap (fun lm => pn (segFromGroup segM lm 1)) =
      (quoteSegsAux segM.source p ls).flatMap pn := by
  intro ls
  induction ls with
  | nil => intro p; rfl
  | cons l t ih =>
    intro p
    have hseg : segFromGroup segM
        ⟨p, p + 2 + l.length + 1, [(1, p + 2, p + 2 + l.length + 1)]⟩ 1 =
        ⟨segM.source, p + 2, l.length + 1⟩ := by
      simp [segFromGroup, capGet, Segment.relocate, Segment.mk.injEq]
      omega
    simp only [quoteHitsAux, quoteSegsAux, List.flatMap_cons, ih, hseg]

/-- If the pattern fails at the segment start itself, any produced hit
starts strictly later. -/
theorem regex_matcher_fail_pos {pat : Regex}
    {tr : Segment → SearchHit → Option MarkdownNode} {seg : Segment}
    {hit : ParsedMatch}
    (h0 : mtch seg.source seg.endPos pat seg.start [] = [])
    (h : regex_matcher pat tr seg = some hit) :
    seg.start < hit.segment.start := by
  unfold regex_matcher at h
  rcases hr : rsearch seg.source pat seg.start seg.endPos with _ | sh
  · simp only [hr] at h
    exact Option.noConfusion h
  · simp only [hr] at h
    have hpos := rsearch_after_fail h0 hr
    split at h
    · cases h
    · rcases ht : tr (seg.relocate sh.mstart (sh.mend - sh.mstart)) sh
        with _ | nd
      · simp only [ht] at h
        exact Option.noConfusion h
      · simp only [ht, Option.some.injEq] at h
        subst h
        exact hpos

theorem strFindAux_found {s needle : List Char} {b : Nat} :
    ∀ {count idx i : Nat}, strFindAux s needle b count idx = some i →
    idx ≤ i ∧ sliceCh s i (i + needle.length) = needle := by
  intro count
  induction count with
  | zero => intro idx i h; cases h
  | succ count ih =>
    intro idx i h
    simp only [strFindAux] at h
    split at h
    case isTrue hcond =>
      cases h
      simp only [Bool.and_eq_true, decide_eq_true_eq] at hcond
      exact ⟨Nat.le_refl _, hcond.2⟩
    case isFalse =>
      obtain ⟨hle, hsl⟩ := ih h
      exact ⟨by omega, hsl⟩

theorem sliceCh_head {s : List Char} {a b : Nat} {c : Char} {t : List Char}
    (h : sliceCh s a b = c :: t) : getC s a = c := by
  unfold sliceCh at h
  rcases hd : s.drop a with _ | ⟨d, t2⟩
  · rw [hd] at h
    simp at h
  · rw [hd] at h
    rcases hba : b - a with _ | k
    · rw [hba] at h
      simp at h
    · rw [hba, List.take_succ_cons] at h
      have hdc : d = c := (List.cons.injEq _ _ _ _ ▸ h).1
      have hg := getC_drop s a 0
      rw [Nat.add_zero, hd] at hg
      rw [hg]
      exact hdc

/-- If the needle does not sit at the segment start, any hit of a string
matcher starts strictly later. -/
theorem string_matcher_fail_pos {needle : List Char}
    {tr : Segment → MarkdownNode} {seg : Segment} {hit : ParsedMatch}
    {nc : Char} {nt : List Char} (hne : needle = nc :: nt)
    (hc : ¬ getC seg.source seg.start = nc)
    (h : string_matcher needle tr seg = some hit) :
    seg.start < hit.segment.start := by
  unfold string_matcher at h
  rcases hf : strFind seg.source needle seg.start seg.endPos with _ | idx
  · rw [hf] at h
    cases h
  · rw [hf] at h
    cases h
    obtain ⟨hle, hsl⟩ := strFindAux_found hf
    rcases Nat.lt_or_ge seg.start idx with hlt | hge
    · exact hlt
    · exfalso
      have hidx : idx = seg.start := by omega
      rw [hidx, hne] at hsl
      exact hc (sliceCh_head hsl)

/-- `^>>>\s` cannot match at position 0 when the second character is a
plain space (the text starts `"> "`). -/
theorem multiLineQuote_fail_at0 {s : List Char} {endP : Nat} (caps : Caps)
    (h1 : getC s 1 = ' ') : mtch s endP multiLineQuotePat 0 caps = [] := by
  have hform : multiLineQuotePat =
      .seq .bol (.seq (.chr '>') (.seq (.chr '>') (.seq (.chr '>')
        (.seq (.cls isSpacePy)
          (.grp 1 (rep1 false (.dot true))))))) := rfl
  rw [hform]
  by_cases h0 : getC s 0 = '>'
  · by_cases hp : 0 < endP
    · simp [mtch, forceNat_eq, h0, h1, hp]
    · simp [mtch, forceNat_eq, hp]
  · simp [mtch, forceNat_eq, h0]

/-- `_aggregate_matcher` settles on a matcher that hits at the segment
start when every earlier matcher's hits (if any) start strictly later. -/
theorem aggregateGo_breakthrough (seg : Segment) (M : Matcher)
    (rest : List Matcher) (big : ParsedMatch) :
    ∀ (pre : List Matcher) (earliest : Option ParsedMatch),
    (∀ m ∈ pre, ∀ hit, m seg = some hit → seg.start < hit.segment.start) →
    M seg = some big → big.segment.start = seg.start →
    (∀ e, earliest = some e → seg.start < e.segment.start) →
    aggregateGo seg (pre ++ M :: rest) earliest = some big := by
  intro pre
  induction pre with
  | nil =>
    intro earliest _ hM hbig hearl
    simp only [List.nil_append, aggregateGo, hM]
    rcases hce : earliest with _ | e
    · simp [hbig]
    · have hepos : big.segment.start < e.segment.start := by
        rw [hbig]
        exact hearl e hce
      simp only [if_pos hepos, if_pos hbig]
  | cons m pre ih =>
    intro earliest hpre hM hbig hearl
    simp only [List.cons_append, aggregateGo]
    rcases hm : m seg with _ | hitm
    · exact ih earliest (fun m' hm' => hpre m' (List.mem_cons_of_mem m hm'))
        hM hbig hearl
    · have hmpos := hpre m (List.mem_cons_self _ _) hitm hm
      rcases hce : earliest with _ | e
      · have hne : ¬ hitm.segment.start = seg.start := by omega
        simp only [if_neg hne]
        exact ih (some hitm)
          (fun m' hm' => hpre m' (List.mem_cons_of_mem m hm'))
          hM hbig
          (fun e' he' => by
            cases he'
            exact hmpos)
      · have hepos := hearl e hce
        by_cases hcmp : hitm.segment.start < e.segment.start
        · have hne : ¬ hitm.segment.start = seg.start := by omega
          simp only [if_pos hcmp, if_neg hne]
          exact ih (some hitm)
            (fun m' hm' => hpre m' (List.mem_cons_of_mem m hm'))
            hM hbig
            (fun e' he' => by
              cases he'
              exact hmpos)
        · have hne : ¬ e.segment.start = seg.start := by omega
          simp only [if_neg hcmp, if_neg hne]
          exact ih (some e)
            (fun m' hm' => hpre m' (List.mem_cons_of_mem m hm'))
            hM hbig
            (fun e' he' => by
              cases he'
              exact hepos)

theorem matchAllGo_stop (m : Matcher) (segment : Segment) (fuel current : Nat)
    (h : ¬ current < segment.endPos) :
    matchAllGo m segment fuel current = [] := by
  cases fuel <;> simp [matchAllGo, h]

theorem regex_matcher_gt_pos {pat : Regex}
    {tr : Segment → SearchHit → Option MarkdownNode} {src : List Char}
    {N : Nat} {hit : ParsedMatch} (hn : nullable pat = false)
    (hf : firstb pat (getC src 0) = false)
    (h : regex_matcher pat tr ⟨src, 0, N⟩ = some hit) :
    (⟨src, 0, N⟩ : Segment).start < hit.segment.start := by
  refine regex_matcher_fail_pos ?_ h
  exact mtch_fail_first [] hn hf

theorem string_matcher_gt_pos {needle : List Char}
    {tr : Segment → MarkdownNode} {seg : Segment} {hit : ParsedMatch}
    (nc : Char) (hne : needle.head? = some nc)
    (hc : ¬ getC seg.source seg.start = nc)
    (h : string_matcher needle tr seg = some hit) :
    seg.start < hit.segment.start := by
  rcases hn : needle with _ | ⟨c0, t0⟩
  · rw [hn] at hne
    cases hne
  · rw [hn] at hne
    rw [List.head?_cons, Option.some_inj] at hne
    subst hne
    rw [hn] at h
    exact string_matcher_fail_pos rfl hc h

/-- The repeated-quote matcher, on the whole-run segment, matches the
entire run and emits one Quote node over the per-line child parses. -/
theorem repeatedQuote_matcher_hit (l1 l2 : List Char)
    (t : List (List Char)) (pn : Segment → List MarkdownNode)
    (hnl : ∀ l ∈ l1 :: l2 :: t, '\n' ∉ l) :
    mk_repeated_single_line_quote pn
      ⟨quoteRun (l1 :: l2 :: t), 0, (quoteRun (l1 :: l2 :: t)).length⟩ =
      some ⟨⟨quoteRun (l1 :: l2 :: t), 0, (quoteRun (l1 :: l2 :: t)).length⟩,
        .formatting .quote (nlist
          ((quoteSegsAux (quoteRun (l1 :: l2 :: t)) 0
            (l1 :: l2 :: t)).flatMap pn))⟩ := by
  obtain ⟨c, hhead⟩ := repeatedQuote_head (quoteRun (l1 :: l2 :: t))
    (quoteRun (l1 :: l2 :: t)).length l1 l2 t rfl hnl rfl
  have hsearch := rsearch_of_head (Nat.zero_le _) hhead
  have hfind : rfinditer (quoteRun (l1 :: l2 :: t)) quoteLinePat 0
      (quoteRun (l1 :: l2 :: t)).length =
      quoteHitsAux 0 (l1 :: l2 :: t) := by
    unfold rfinditer
    refine finditer_quoteLines _ _ (l1 :: l2 :: t) 0 _ (by simp)
      hnl (Or.inl rfl) (by omega) ?_
    have := length_le_quoteRun (l1 :: l2 :: t)
    omega
  unfold mk_repeated_single_line_quote regex_matcher
  simp only [Segment.endPos, Nat.zero_add, hsearch]
  have hcond : ¬ ((decide ((0 : Nat) < 0) ||
      decide ((quoteRun (l1 :: l2 :: t)).length <
        (quoteRun (l1 :: l2 :: t)).length)) = true) := by
    simp
  rw [if_neg hcond]
  simp only [Segment.relocate, Nat.sub_zero, hfind,
    quoteHits_flatMap ⟨quoteRun (l1 :: l2 :: t), 0,
      (quoteRun (l1 :: l2 :: t)).length⟩ pn (l1 :: l2 :: t) 0]

/-- On the whole-run segment, the full aggregate matcher settles on the
repeated-quote matcher's hit. -/
theorem quoteRun_aggregate (l1 l2 : List Char) (t : List (List Char))
    (recf : MSel → Segment → List MarkdownNode)
    (hnl : ∀ l ∈ l1 :: l2 :: t, '\n' ∉ l) :
    aggregate_matcher (node_matchers recf)
      ⟨quoteRun (l1 :: l2 :: t), 0, (quoteRun (l1 :: l2 :: t)).length⟩ =
      some ⟨⟨quoteRun (l1 :: l2 :: t), 0, (quoteRun (l1 :: l2 :: t)).length⟩,
        .formatting .quote (nlist
          ((quoteSegsAux (quoteRun (l1 :: l2 :: t)) 0
            (l1 :: l2 :: t)).flatMap (recf .node)))⟩ := by
  have hc0 : getC (quoteRun (l1 :: l2 :: t)) 0 = '>' := rfl
  have hc1 : getC (quoteRun (l1 :: l2 :: t)) 1 = ' ' := rfl
  have hsplit : node_matchers recf =
      [mk_shrug_text,
       mk_ignored_emoji_text,
       mk_escaped_symbol_text,
       mk_escaped_character_text,
       mk_italic_bold (recf .boldOnly),
       mk_italic_underline (recf .underlineOnly),
       mk_bold (recf .node),
       mk_italic (recf .node),
       mk_underline (recf .node),
       mk_italic_alt (recf .node),
       mk_strikethrough (recf .node),
       mk_spoiler (recf .node),
       mk_multi_line_quote (recf .node)] ++
      mk_repeated_single_line_quote (recf .node) ::
      [mk_single_line_quote (recf .node),
       mk_heading (recf .node),
       mk_list (recf .node),
       mk_multi_line_code_block,
       mk_inline_code_block,
       mk_everyone_mention,
       mk_here_mention,
       mk_user_mention,
       mk_channel_mention,
       mk_role_mention,
       mk_masked_link (recf .node),
       mk_auto_link,
       mk_hidden_link,
       mk_standard_emoji,
       mk_custom_emoji,
       mk_coded_standard_emoji,
       mk_timestamp] := rfl
  unfold aggregate_matcher
  rw [hsplit]
  refine aggregateGo_breakthrough _ _ _ _ _ none ?_
    (repeatedQuote_matcher_hit l1 l2 t (recf .node) hnl) rfl
    (fun e he => Option.noConfusion he)
  intro m hm hit hsome
  simp only [List.mem_cons, List.not_mem_nil, or_false] at hm
  rcases hm with rfl | rfl | rfl | rfl | rfl | rfl | rfl | rfl | rfl | rfl
    | rfl | rfl | rfl
  · refine string_matcher_gt_pos (Char.ofNat 175) (by decide) ?_ hsome
    show ¬ getC (quoteRun (l1 :: l2 :: t)) 0 = Char.ofNat 175
    rw [hc0]
    decide
  · exact regex_matcher_gt_pos (by decide) (by rw [hc0]; decide) hsome
  · exact regex_matcher_gt_pos (by decide) (by rw [hc0]; decide) hsome
  · exact regex_matcher_gt_pos (by decide) (by rw [hc0]; decide) hsome
  · exact regex_matcher_gt_pos (by decide) (by rw [hc0]; decide) hsome
  · exact regex_matcher_gt_pos (by decide) (by rw [hc0]; decide) hsome
  · exact regex_matcher_gt_pos (by decide) (by rw [hc0]; decide) hsome
  · exact regex_matcher_gt_pos (by decide) (by rw [hc0]; decide) hsome
  · exact regex_matcher_gt_pos (by decide) (by rw [hc0]; decide) hsome
  · exact regex_matcher_gt_pos (by decide) (by rw [hc0]; decide) hsome
  · exact regex_matcher_gt_pos (by decide) (by rw [hc0]; decide) hsome
  · exact regex_matcher_gt_pos (by decide) (by rw [hc0]; decide) hsome
  · exact regex_matcher_fail_pos (multiLineQuote_fail_at0 [] hc1) hsome

mutual
/-- Does a Quote formatting node occur anywhere in the tree? -/
def hasQuote : MarkdownNode → Bool
  | .text _ => false
  | .formatting k cs =>
    (match k with
     | .quote => true
     | _ => false) || hasQuoteL cs
  | .heading _ cs => hasQuoteL cs
  | .list items => hasQuoteL items
  | .listItem cs => hasQuoteL cs
  | .inlineCodeBlock _ => false
  | .multiLineCodeBlock _ _ => false
  | .link _ cs => hasQuoteL cs
  | .mention _ _ => false
  | .emoji _ _ _ => false
  | .timestamp _ _ => false
def hasQuoteL : MarkdownNodeList → Bool
  | .nil => false
  | .cons n rest => hasQuote n || hasQuoteL rest
end

/-- C5 (amended): a whole-input run of two or more `"> "`-prefixed lines
parses to a single Quote formatting node — not one per line — whose
children are the concatenated parses, at the next recursion depth, of the
per-line capture segments (each line's content plus its newline).  The
original claim's unrestricted "every run of two or more consecutive `> `
lines" fails when the run sits inside a higher-priority construct; see
the counterexample. -/
theorem C5_quote_run_amended (ls : List (List Char)) (h2 : 2 ≤ ls.length)
    (hnl : ∀ l ∈ ls, '\n' ∉ l) :
    parse ⟨quoteRun ls⟩ =
      [.formatting .quote (nlist ((quoteSegsAux (quoteRun ls) 0 ls).flatMap
        (fun sg => parseCore 31 .node sg)))] := by
  rcases ls with _ | ⟨l1, ls1⟩
  · simp only [List.length_nil] at h2
    omega
  rcases ls1 with _ | ⟨l2, t⟩
  · simp only [List.length_cons, List.length_nil] at h2
    omega
  have hlen1 := quoteRun_length_cons l1 (l2 :: t)
  have hlen2 := quoteRun_length_cons l2 t
  have hNpos : 0 < (quoteRun (l1 :: l2 :: t)).length := by omega
  have hagg := quoteRun_aggregate l1 l2 t
    (fun sel' seg' => parseCore 31 sel' seg') hnl
  show matchAllGo
      (aggregate_matcher
        (node_matchers (fun sel' seg' => parseCore 31 sel' seg')))
      ⟨quoteRun (l1 :: l2 :: t), 0, (quoteRun (l1 :: l2 :: t)).length⟩
      ((quoteRun (l1 :: l2 :: t)).length + 1) 0 =
      [.formatting .quote (nlist
        ((quoteSegsAux (quoteRun (l1 :: l2 :: t)) 0
          (l1 :: l2 :: t)).flatMap (fun sg => parseCore 31 .node sg)))]
  obtain ⟨N, hN⟩ : ∃ n, (quoteRun (l1 :: l2 :: t)).length = n := ⟨_, rfl⟩
  rw [hN] at hagg hNpos ⊢
  simp only [matchAllGo]
  have hend : (⟨quoteRun (l1 :: l2 :: t), 0, N⟩ : Segment).endPos = N := by
    simp [Segment.endPos]
  rw [hend, if_pos hNpos]
  have hrel : (⟨quoteRun (l1 :: l2 :: t), 0, N⟩ : Segment).relocate 0
      (N - 0) = ⟨quoteRun (l1 :: l2 :: t), 0, N⟩ := by
    simp [Segment.relocate]
  rw [hrel, hagg]
  simp only [forceNat_eq, Nat.zero_add]
  rw [matchAllGo_stop _ _ _ _ (by rw [hend]; omega)]
  simp [Nat.lt_irrefl]

/-- Witness for C5 (amended): the two-line run built from `"one"` and
`"two"`. -/
theorem C5_witness :
    2 ≤ ([['o', 'n', 'e'], ['t', 'w', 'o']] : List (List Char)).length ∧
    (∀ l ∈ ([['o', 'n', 'e'], ['t', 'w', 'o']] : List (List Char)),
      '\n' ∉ l) ∧
    parse ⟨quoteRun [['o', 'n', 'e'], ['t', 'w', 'o']]⟩ =
      [.formatting .quote (nlist
        ((quoteSegsAux (quoteRun [['o', 'n', 'e'], ['t', 'w', 'o']]) 0
          [['o', 'n', 'e'], ['t', 'w', 'o']]).flatMap
            (fun sg => parseCore 31 .node sg)))] :=
  ⟨by decide, by decide, C5_quote_run_amended _ (by decide) (by decide)⟩

/-- C5 counterexample to the unrestricted claim: the input
<t>```\n> a\n> b\n```</t> contains a run of two consecutive lines starting
with `"> "`, yet the full parse is a single multi-line code block and no
Quote node occurs anywhere in the output. -/
theorem C5_counterexample :
    parse "```\n> a\n> b\n```" = [.multiLineCodeBlock "" "> a\n> b"] ∧
    (parse "```\n> a\n> b\n```").all (fun n => !(hasQuote n)) = true := by
  constructor
  · decide
  · decide

/-! ## C10: the empty input -/

/-- C10: both pipelines return the empty node list on the empty string
(not a singleton empty text node), and both renderers therefore produce
the empty output for it, against any context. -/
theorem C10_empty_input :
    parse "" = [] ∧ parse_minimal "" = [] ∧
    (∀ ctx : ExportContext, PlainTextMarkdownVisitor_format ctx "" = "") ∧
    (∀ (ctx : ExportContext) (allowed : Bool),
      HtmlMarkdownVisitor_format ctx "" allowed = "") :=
  ⟨rfl, rfl, fun _ => rfl, fun _ _ => rfl⟩

end DiscordMd
